import Mathlib

/-!
Shallow embedding of the paletter color quantizer (src/lib.rs, src/color.rs,
src/median_cut.rs, src/octree.rs).

Machine integers are modelled as `Nat`:
* `u8` channel values carry side conditions `isU8` where the claim needs them;
* `u64` accumulators cannot overflow for the list sizes the program admits, so
  they are plain `Nat` sums;
* `usize` arena handles are plain `Nat`, with the Rust sentinel
  `usize::MAX` kept as an explicit constant.

Fallible operations (slice indexing, `unwrap`, `unreachable!`) return
`Option`, with `none` standing for a Rust panic.

The only floating-point arithmetic in the program is `Rgb24::average` (f32
division and rounding) and the HSV projection.  The `F32` type below models
the exact subset of f32 behaviour `average` exercises: division of
non-negative values (including the `0.0 / 0.0 = NaN` case), `f32::round`
(round half away from zero) and the saturating `as u8` cast (`NaN ↦ 0`,
`+∞ ↦ 255`).  Finite values are carried as exact non-negative fractions
`num / den`; the sums and counts involved are small enough that the
idealization only ignores last-ulp representation error, which cannot move
a rounded mean across an integer bound.
-/

set_option maxRecDepth 2000000

/-- RGB channel (src/color.rs, `enum RGBChannel`). -/
inductive RGBChannel where
  | Red
  | Green
  | Blue
deriving DecidableEq, Repr

def RGBChannel.to_usize : RGBChannel → Nat
  | .Red => 0
  | .Green => 1
  | .Blue => 2

/-- RGB24 color (src/color.rs, `struct Rgb24 { channels: [u8; 3] }`).
The three array slots are the named fields `r`, `g`, `b`. -/
structure Rgb24 where
  r : Nat
  g : Nat
  b : Nat
deriving DecidableEq, Repr

/-- The `u8` range invariant of the three channels. -/
def Rgb24.isU8 (c : Rgb24) : Prop := c.r < 256 ∧ c.g < 256 ∧ c.b < 256

instance (c : Rgb24) : Decidable c.isU8 := by unfold Rgb24.isU8; infer_instance

def Rgb24.new (r g b : Nat) : Rgb24 := ⟨r, g, b⟩

/-- `impl ops::Index<usize> for Rgb24`: channel access by index 0/1/2.
Rust panics on an index ≥ 3; the program only ever passes
`RGBChannel::to_usize` values, so the default branch is unreachable. -/
def Rgb24.channel (c : Rgb24) (i : Nat) : Nat :=
  match i with
  | 0 => c.r
  | 1 => c.g
  | 2 => c.b
  | _ => 0

/-- Channel-wise minimum (src/color.rs `Rgb24::min`). -/
def Rgb24.minc (left right : Rgb24) : Rgb24 :=
  Rgb24.new (Nat.min left.r right.r) (Nat.min left.g right.g) (Nat.min left.b right.b)

/-- Channel-wise maximum (src/color.rs `Rgb24::max`). -/
def Rgb24.maxc (left right : Rgb24) : Rgb24 :=
  Rgb24.new (Nat.max left.r right.r) (Nat.max left.g right.g) (Nat.max left.b right.b)

/-- `Rgb24::max_channel_delta`: fold channel-wise min/max from the seeds
`(255,255,255)` / `(0,0,0)`, subtract, and pick the channel with the
strictly greatest delta, Red before Green before Blue, Blue as default.
The subtractions are `u8` subtractions; they underflow only on an empty
input slice (a debug-build panic in Rust), which the program never passes;
truncated `Nat` subtraction is used here. -/
def Rgb24.max_channel_delta (colors : List Rgb24) : RGBChannel × Nat :=
  let high := Rgb24.new 255 255 255
  let low := Rgb24.new 0 0 0
  let mm := colors.foldl
    (fun (p : Rgb24 × Rgb24) val => (Rgb24.minc p.1 val, Rgb24.maxc p.2 val))
    (high, low)
  let delta := Rgb24.new (mm.2.r - mm.1.r) (mm.2.g - mm.1.g) (mm.2.b - mm.1.b)
  if delta.r > delta.g ∧ delta.r > delta.b then (RGBChannel.Red, delta.r)
  else if delta.g > delta.r ∧ delta.g > delta.b then (RGBChannel.Green, delta.g)
  else (RGBChannel.Blue, delta.b)

/-- Model of the f32 values flowing through `Rgb24::average`:
NaN, +infinity, or a non-negative finite value carried as the exact
(unnormalized) fraction `num / den` with `den ≠ 0`.  The program only ever
divides non-negative channel sums by list lengths, so negative values never
arise. -/
inductive F32 where
  | nan
  | inf
  | val (num : Nat) (den : Nat)
deriving DecidableEq, Repr

def F32.ofNat (n : Nat) : F32 := .val n 1

/-- f32 division restricted to the non-negative finite operands `average`
produces: `0.0 / 0.0 = NaN`, `x / 0.0 = +∞` for `x > 0`, exact quotient
otherwise; anything involving NaN is NaN. -/
def F32.div : F32 → F32 → F32
  | .val a b, .val c d => if c = 0 then (if a = 0 then .nan else .inf) else .val (a * d) (b * c)
  | .inf, .val _ _ => .inf
  | _, _ => .nan

/-- `f32::round`: round half away from zero, NaN and ∞ fixed.  For a
non-negative fraction `a / b` this is `⌊a/b + 1/2⌋ = (2a + b) / 2b`. -/
def F32.round : F32 → F32
  | .nan => .nan
  | .inf => .inf
  | .val a b => .val ((2 * a + b) / (2 * b)) 1

/-- The saturating `as u8` cast: NaN to 0, +∞ and values above 255 to 255,
finite values truncated toward zero (for a non-negative fraction `a / b`,
truncation is Nat division). -/
def F32.toU8 : F32 → Nat
  | .nan => 0
  | .inf => 255
  | .val a b => Nat.min 255 (a / b)

/-- `Rgb24::average`: 64-bit channel sums, f32 division by the length,
`f32::round`, cast to `u8`.  On the empty slice the division is
`0.0 / 0.0`. -/
def Rgb24.average (colors : List Rgb24) : Rgb24 :=
  let s := colors.foldl
    (fun (sum : Nat × Nat × Nat) val => (sum.1 + val.r, sum.2.1 + val.g, sum.2.2 + val.b))
    (0, 0, 0)
  let len := colors.length
  Rgb24.new
    (((F32.ofNat s.1).div (F32.ofNat len)).round.toU8)
    (((F32.ofNat s.2.1).div (F32.ofNat len)).round.toU8)
    (((F32.ofNat s.2.2).div (F32.ofNat len)).round.toU8)

/-- `Rgb24::radix_sort`: 256 buckets, one pass appending each color to the
bucket of its chosen channel value, then concatenate in bucket order.
Rust writes the flattened buckets back into the slice; since every color
lands in exactly one bucket, the flattening is returned directly.  A
channel value ≥ 256 panics in Rust (`buckets[c[channel]]`); here the
out-of-range `List.set` is a no-op, so theorems carry `isU8` hypotheses. -/
def Rgb24.radix_sort (colors : List Rgb24) (channel : RGBChannel) : List Rgb24 :=
  let ch := channel.to_usize
  let buckets := colors.foldl
    (fun (bs : List (List Rgb24)) c => bs.set (c.channel ch) (bs.getD (c.channel ch) [] ++ [c]))
    (List.replicate 256 [])
  buckets.flatten

/-- `Rgb24::level_index`: extract bit `7 − level` of each channel and pack
them as a 3-bit child index. -/
def Rgb24.level_index (c : Rgb24) (level : Nat) : Nat :=
  let inv := 7 - level
  let mask := 128 >>> level
  ((c.r &&& mask) >>> inv <<< 2) ||| ((c.g &&& mask) >>> inv <<< 1) ||| ((c.b &&& mask) >>> inv)

/-- Median-cut bucket (src/median_cut.rs, `struct Bucket`): an offset into the
color array plus the cached widest-channel statistic of the range up to the
next bucket's offset. -/
structure Bucket where
  offset : Nat
  channel : RGBChannel
  delta : Nat
deriving DecidableEq, Repr

def Bucket.new (offset : Nat) (channel : RGBChannel) (delta : Nat) : Bucket :=
  ⟨offset, channel, delta⟩

/-- Model of `buckets.iter().enumerate().max_by(|(_, x), (_, y)| x.delta.cmp(&y.delta))`.
Rust's `Iterator::max_by` keeps the incumbent only when it is strictly
greater, so among equal maxima the LAST element is returned. -/
def maxByStep (acc : Option (Nat × Bucket)) (p : Nat × Bucket) : Option (Nat × Bucket) :=
  match acc with
  | none => some p
  | some q => if p.2.delta < q.2.delta then some q else some p

def maxByDelta (buckets : List Bucket) : Option (Nat × Bucket) :=
  buckets.enum.foldl maxByStep none

/-- Rust slice indexing `&l[s..e]`: `none` models the panic when the range is
invalid. -/
def sliceRange (l : List Rgb24) (s e : Nat) : Option (List Rgb24) :=
  if s ≤ e ∧ e ≤ l.length then some ((l.drop s).take (e - s)) else none

/-- The `while buckets.len() <= palette_size` loop of `median_cut`
(src/median_cut.rs lines 51-71).  Each iteration selects the max-delta
bucket (`Iterator::max_by`, ties to the last), radix-sorts its slice in
place, and splits it at the floor midpoint.  `none` models the panics:
`unwrap` of an empty iterator, `buckets[i + 1]` out of bounds (which fires
when the sentinel is selected), and invalid slice ranges.

The Rust loop terminates because every iteration inserts exactly one
bucket, so at most `palette_size` iterations run; the structural `fuel`
argument (instantiated with `palette_size + 2` below, which strictly
dominates that count) makes the recursion kernel-computable without
changing the computed value on any input. -/
def medianCutLoop (fuel palette_size : Nat) (colors : List Rgb24) (buckets : List Bucket) :
    Option (List Rgb24 × List Bucket) :=
  match fuel with
  | 0 => none
  | fuel + 1 =>
    if buckets.length ≤ palette_size then
      match maxByDelta buckets with
      | none => none
      | some (i, max_bucket) =>
        match buckets[i]?, buckets[i + 1]? with
        | some bi, some bi1 =>
          let start := bi.offset
          let e := bi1.offset
          let mid := (start + e) / 2
          match sliceRange colors start e with
          | none => none
          | some bucket_colors =>
            let sorted := Rgb24.radix_sort bucket_colors max_bucket.channel
            let colors' := colors.take start ++ sorted ++ colors.drop e
            match sliceRange colors' start mid, sliceRange colors' mid e with
            | some lo, some hi =>
              let cd0 := Rgb24.max_channel_delta lo
              let cd1 := Rgb24.max_channel_delta hi
              let buckets' := (buckets.set i (Bucket.new start cd0.1 cd0.2)).insertIdx (i + 1)
                (Bucket.new mid cd1.1 cd1.2)
              medianCutLoop fuel palette_size colors' buckets'
            | _, _ => none
        | _, _ => none
    else some (colors, buckets)

/-- `median_cut` (src/median_cut.rs): seed one bucket over the whole array
plus the sentinel, run the split loop, then emit the average of each
adjacent-offset range.  `none` models a panic. -/
def median_cut (colors : List Rgb24) (palette_size : Nat) : Option (List Rgb24) :=
  let cd := Rgb24.max_channel_delta colors
  let buckets := [Bucket.new 0 cd.1 cd.2, Bucket.new colors.length cd.1 0]
  match medianCutLoop (palette_size + 2) palette_size colors buckets with
  | none => none
  | some (colors', buckets') =>
    (buckets'.zip buckets'.tail).mapM
      (fun p => (sliceRange colors' p.1.offset p.2.offset).map Rgb24.average)

/-- Leaf octant payload (src/octree.rs, `struct Leaf`): count and summed
RGB values, `u64` accumulators modelled as `Nat`. -/
structure Leaf where
  count : Nat
  r : Nat
  g : Nat
  b : Nat
deriving DecidableEq, Repr

/-- RGB octant (src/octree.rs, `enum Octant`).  A branch holds the 8 child
handles (`[Handle; 8]` kept as a `List Nat` of length 8). -/
inductive Octant where
  | branch (children : List Nat)
  | leaf (lf : Leaf)
deriving DecidableEq, Repr

/-- `Octree::EMPTY`, the reserved `usize::MAX` handle marking an absent
child. -/
def Octree.EMPTY : Nat := 2 ^ 64 - 1

/-- `Octree::ROOT`. -/
def Octree.ROOT : Nat := 0

/-- `Octant::new_branch`. -/
def Octant.new_branch : Octant := .branch (List.replicate 8 Octree.EMPTY)

/-- `Octant::new_leaf`. -/
def Octant.new_leaf (count r g b : Nat) : Octant := .leaf ⟨count, r, g, b⟩

/-- `Octant::from(&Rgb24)`: a fresh leaf holding one color. -/
def Octant.ofColor (color : Rgb24) : Octant := .leaf ⟨1, color.r, color.g, color.b⟩

/-- `Octant::child`: the stored handle at `index` (possibly `EMPTY`) for a
branch, `None` for a leaf.  The program only passes indices < 8, so the
`getD` default is unreachable. -/
def Octant.child (o : Octant) (index : Nat) : Option Nat :=
  match o with
  | .branch children => some (children.getD index Octree.EMPTY)
  | .leaf _ => none

/-- `Octant::child_exists`. -/
def Octant.child_exists (o : Octant) (index : Nat) : Bool :=
  match o with
  | .branch children => children.getD index Octree.EMPTY ≠ Octree.EMPTY
  | .leaf _ => false

/-- `Octant::set_child`: does nothing on a leaf. -/
def Octant.set_child (o : Octant) (index : Nat) (handle : Nat) : Octant :=
  match o with
  | .branch children => .branch (children.set index handle)
  | .leaf _ => o

/-- `Octant::child_count`: the number of non-`EMPTY` children. -/
def Octant.child_count (o : Octant) : Nat :=
  match o with
  | .branch children => (children.filter (fun c => c ≠ Octree.EMPTY)).length
  | .leaf _ => 0

/-- `Octant::add_color`: accumulate a color into a leaf; no-op on a branch. -/
def Octant.add_color (o : Octant) (color : Rgb24) : Octant :=
  match o with
  | .branch _ => o
  | .leaf lf => .leaf ⟨lf.count + 1, lf.r + color.r, lf.g + color.g, lf.b + color.b⟩

/-- `Octant::make_rgb24`: the averaged RGB value of a positive-count leaf,
integer division, `as u8` truncating cast. -/
def Octant.make_rgb24 (o : Octant) : Option Rgb24 :=
  match o with
  | .branch _ => none
  | .leaf lf =>
    if lf.count > 0 then
      some (Rgb24.new (lf.r / lf.count % 256) (lf.g / lf.count % 256) (lf.b / lf.count % 256))
    else none

/-- RGB-indexed octree (src/octree.rs, `struct Octree`): the octant arena
and, per level 0-7, the handles created at that level in creation order. -/
structure Octree where
  octants : List Octant
  levels : List (List Nat)
deriving DecidableEq, Repr

/-- `Octree::new`: root branch only, empty level lists. -/
def Octree.new : Octree := ⟨[Octant.new_branch], List.replicate 8 []⟩

/-- `Octree::len`. -/
def Octree.len (t : Octree) : Nat := t.octants.length

/-- `Octree::make_handle`. -/
def Octree.make_handle (t : Octree) : Nat := t.len

/-- `Octree::add_branch`: push a fresh branch, link it as the child, record
its handle at `level`. -/
def Octree.add_branch (t : Octree) (handle index level : Nat) : Octree :=
  let branch_handle := t.make_handle
  let octants := t.octants ++ [Octant.new_branch]
  let octants := octants.set handle ((octants.getD handle Octant.new_branch).set_child index branch_handle)
  ⟨octants, t.levels.set level (t.levels.getD level [] ++ [branch_handle])⟩

/-- `Octree::add_leaf`: push a fresh one-color leaf, link it, record its
handle at `level`. -/
def Octree.add_leaf (t : Octree) (handle index level : Nat) (color : Rgb24) : Octree :=
  let leaf_handle := t.make_handle
  let octants := t.octants ++ [Octant.ofColor color]
  let octants := octants.set handle ((octants.getD handle Octant.new_branch).set_child index leaf_handle)
  ⟨octants, t.levels.set level (t.levels.getD level [] ++ [leaf_handle])⟩

/-- One step of the `for level in 0..7` descent of `Octree::add_color`:
read the level index, install a fresh branch if the child slot is empty,
then step into the child via `child(index).unwrap()`.  `none` models the
panics (`octants[handle]` out of bounds, `unwrap` on a leaf). -/
def Octree.descendStep (color : Rgb24) (acc : Option (Octree × Nat)) (level : Nat) :
    Option (Octree × Nat) :=
  acc.bind fun th =>
    let t := th.1
    let handle := th.2
    match t.octants[handle]? with
    | none => none
    | some oct =>
      let index := color.level_index level
      let t := if oct.child_exists index then t else t.add_branch handle index level
      match t.octants[handle]? with
      | none => none
      | some oct' => (oct'.child index).map fun h => (t, h)

/-- `Octree::add_color` (src/octree.rs lines 254-275): descend levels 0-6
creating branches as needed, then create or accumulate the level-7 leaf. -/
def Octree.add_color (t : Octree) (color : Rgb24) : Option Octree :=
  match (List.range 7).foldl (Octree.descendStep color) (some (t, Octree.ROOT)) with
  | none => none
  | some (t, handle) =>
    match t.octants[handle]? with
    | none => none
    | some oct =>
      let index := color.level_index 7
      if oct.child_exists index then
        match oct.child index with
        | none => none
        | some child_handle =>
          match t.octants[child_handle]? with
          | none => none
          | some childOct =>
            some ⟨t.octants.set child_handle (childOct.add_color color), t.levels⟩
      else
        some (t.add_leaf handle index 7 color)

/-- `Octree::build`. -/
def Octree.build (t : Octree) (colors : List Rgb24) : Option Octree :=
  colors.foldl (fun acc c => acc.bind (Octree.add_color · c)) (some t)

/-- `Octree::branch_to_leaf`: sum the (count, r, g, b) of the non-`EMPTY`
leaf children; branch children contribute nothing.  (The source indexes
`self.octants[h]`; an out-of-range handle would panic there but is treated
as a non-leaf here — the build only ever stores in-range handles.) -/
def Octree.branch_to_leaf (octants : List Octant) (children : List Nat) : Octant :=
  let s := (children.filter (fun h => h ≠ Octree.EMPTY)).foldl
    (fun (acc : Nat × Nat × Nat × Nat) h =>
      match octants[h]? with
      | some (Octant.leaf lf) => (acc.1 + lf.count, acc.2.1 + lf.r, acc.2.2.1 + lf.g, acc.2.2.2 + lf.b)
      | _ => acc)
    (0, 0, 0, 0)
  Octant.new_leaf s.1 s.2.1 s.2.2.1 s.2.2.2

/-- Ghost record of what the reduction loop of `Octree::into_palette` did
with one handle: `skipped` is the `continue` taken when
`leaf_count - count + 1 < size`, `collapsed` is a branch replaced by the
summed leaf, `stopped` is the `break` taken when a branch has no children
left (`count == 0`). -/
inductive REvent where
  | skipped (h : Nat)
  | collapsed (h : Nat)
  | stopped (h : Nat)
deriving DecidableEq, Repr

/-- The reduction loop of `Octree::into_palette` (src/octree.rs lines
193-225), one iteration per handle of the reverse-level, creation-order
list, instrumented with the ghost event trace (the events do not influence
control flow).  `leaf_count - count` is `usize` subtraction; it is modelled
as truncated `Nat` subtraction (underflow would be a debug-build panic on
states the program does not reach).  `none` models the
`octants[handle]` panic and the `unreachable!()` arm. -/
def Octree.reduceGo (octants : List Octant) (leaf_count size : Nat) :
    List Nat → Option (List Octant × List REvent)
  | [] => some (octants, [])
  | handle :: rest =>
    match octants[handle]? with
    | none => none
    | some oct =>
      let count := oct.child_count
      if leaf_count - count + 1 < size then
        (Octree.reduceGo octants leaf_count size rest).map
          (fun p => (p.1, REvent.skipped handle :: p.2))
      else
        match oct with
        | .branch children =>
          let new_leaf := Octree.branch_to_leaf octants children
          if count = 0 then some (octants, [REvent.stopped handle])
          else
            let octants := (children.filter (fun h => h ≠ Octree.EMPTY)).foldl
              (fun os h => os.set h (Octant.new_leaf 0 0 0 0)) octants
            let octants := octants.set handle new_leaf
            (Octree.reduceGo octants (leaf_count - count + 1) size rest).map
              (fun p => (p.1, REvent.collapsed handle :: p.2))
        | .leaf _ => none

/-- The iteration order of the reduction loop:
`self.levels.iter().rev().skip(1).flatten()` — levels 6 down to 0, each in
creation order. -/
def Octree.reduceOrder (t : Octree) : List Nat :=
  (t.levels.reverse.drop 1).flatten

/-- `Octree::into_palette`: reduce, then emit every positive-count leaf of
the arena in arena order. -/
def Octree.into_palette (t : Octree) (size : Nat) : Option (List Rgb24) :=
  let leaf_count := (t.levels.getD 7 []).length
  (Octree.reduceGo t.octants leaf_count size t.reduceOrder).map
    (fun p => p.1.filterMap Octant.make_rgb24)

/-- The ghost reduction trace of `Octree::into_palette`. -/
def Octree.reduceTrace (t : Octree) (size : Nat) : Option (List REvent) :=
  let leaf_count := (t.levels.getD 7 []).length
  (Octree.reduceGo t.octants leaf_count size t.reduceOrder).map (fun p => p.2)

/-- `octree` (src/octree.rs line 296): build then reduce. -/
def octree (colors : List Rgb24) (palette_size : Nat) : Option (List Rgb24) :=
  (Octree.new.build colors).bind (Octree.into_palette · palette_size)

/-- Quantization method tag (src/lib.rs, `enum Method`). -/
inductive Method where
  | MedianCut
  | Octree
deriving DecidableEq, Repr

/-- `solve` (src/lib.rs lines 34-43): return the input unchanged when
`palette_size >= colors.len()`, otherwise dispatch to the selected engine. -/
def solve (method : Method) (colors : List Rgb24) (palette_size : Nat) : Option (List Rgb24) :=
  if palette_size ≥ colors.length then some colors
  else
    match method with
    | .MedianCut => median_cut colors palette_size
    | .Octree => octree colors palette_size

/-! Spec-side notions used to state the claims. -/

/-- Bit `i` of `n` (0 or 1), as the spec's "bit 7−L" notion. -/
def bitAt (n i : Nat) : Nat := (n >>> i) % 2

/-- The per-channel minimum over a color list (spec notion). -/
def chanMin (cs : List Rgb24) (f : Rgb24 → Nat) : Nat := ((cs.map f).min?).getD 0

/-- The per-channel maximum over a color list (spec notion). -/
def chanMax (cs : List Rgb24) (f : Rgb24 → Nat) : Nat := ((cs.map f).max?).getD 0

/-- The spec's per-channel delta: max minus min. -/
def chanDeltaSpec (cs : List Rgb24) (f : Rgb24 → Nat) : Nat := chanMax cs f - chanMin cs f

/-- The spec's closed channel hull `[min_channel(C), max_channel(C)]`:
componentwise bounds from the input list. -/
def inHull (cs : List Rgb24) (x : Rgb24) : Prop :=
  chanMin cs Rgb24.r ≤ x.r ∧ x.r ≤ chanMax cs Rgb24.r ∧
  chanMin cs Rgb24.g ≤ x.g ∧ x.g ≤ chanMax cs Rgb24.g ∧
  chanMin cs Rgb24.b ≤ x.b ∧ x.b ≤ chanMax cs Rgb24.b

/-- Claim C3's selection rule, modelled from the spec's words: the lowest
index among the buckets attaining the maximum delta. -/
def firstMaxIdx (bs : List Bucket) : Option (Nat × Bucket) :=
  match (bs.map Bucket.delta).max? with
  | none => none
  | some m => bs.enum.find? (fun p => p.2.delta == m)

/-- Whether a reduction event is a collapse. -/
def REvent.isCollapsed : REvent → Bool
  | .collapsed _ => true
  | _ => false

/-- Whether a reduction event is the `count == 0` break. -/
def REvent.isStopped : REvent → Bool
  | .stopped _ => true
  | _ => false

/-- The temporal property claim C4 asserts of the reduction trace: once a
branch is skipped, no later branch is collapsed. -/
def noCollapseAfterSkip : List REvent → Bool
  | [] => true
  | REvent.skipped _ :: rest =>
    rest.all (fun e => ! e.isCollapsed) && noCollapseAfterSkip rest
  | _ :: rest => noCollapseAfterSkip rest

/-- Slice of a color list as a total function; agrees with `sliceRange` on
valid ranges. -/
def sliceL (cs : List Rgb24) (s e : Nat) : List Rgb24 := (cs.drop s).take (e - s)

/-- Offset ordering on buckets. -/
def offLT (b b' : Bucket) : Prop := b.offset < b'.offset

instance : IsTrans Bucket offLT := ⟨fun _ _ _ h1 h2 => Nat.lt_trans h1 h2⟩

instance (b b' : Bucket) : Decidable (offLT b b') := by unfold offLT; infer_instance

/-- The median-cut loop invariant: the working colors are a same-length
selection from the input, bucket offsets are strictly increasing, each
bucket's cached delta is the widest-channel delta of its current slice,
and the sentinel (last bucket) has delta 0 and offset `|C|`. -/
def MCInv (Cc cs : List Rgb24) (bs : List Bucket) : Prop :=
  cs.length = Cc.length ∧ (∀ c ∈ cs, c ∈ Cc) ∧
  List.Chain' offLT bs ∧
  List.Chain' (fun b b' => b.delta = (Rgb24.max_channel_delta (sliceL cs b.offset b'.offset)).2)
    bs ∧
  bs.getLast?.map Bucket.delta = some 0 ∧
  bs.getLast?.map Bucket.offset = some Cc.length

/-- A leaf aggregates some selection of input colors: its count is the
selection's size and its channel sums are the selection's channel sums. -/
def LeafAgg (Cc : List Rgb24) (lf : Leaf) : Prop :=
  ∃ M : List Rgb24, (∀ y ∈ M, y ∈ Cc) ∧ lf.count = M.length ∧
    lf.r = (M.map Rgb24.r).sum ∧ lf.g = (M.map Rgb24.g).sum ∧ lf.b = (M.map Rgb24.b).sum

/-- Every leaf in the arena aggregates input colors. -/
def ArenaInv (Cc : List Rgb24) (octants : List Octant) : Prop :=
  ∀ o ∈ octants, ∀ lf, o = Octant.leaf lf → LeafAgg Cc lf

/-! Validation of the embedding against concrete scenarios. -/

example : Rgb24.max_channel_delta
    [Rgb24.new 89 226 133, Rgb24.new 124 168 127, Rgb24.new 193 63 57,
     Rgb24.new 161 246 173, Rgb24.new 87 168 222, Rgb24.new 226 51 166,
     Rgb24.new 46 185 177] = (RGBChannel.Green, 195) := by decide

example : Rgb24.average
    [Rgb24.new 216 126 83, Rgb24.new 87 73 32, Rgb24.new 48 84 50,
     Rgb24.new 80 92 233, Rgb24.new 42 166 15, Rgb24.new 57 177 182,
     Rgb24.new 238 15 176] = Rgb24.new 110 105 110 := by decide

example : (Rgb24.new 73 153 101).level_index 0 = 2 := by decide
example : (Rgb24.new 73 153 101).level_index 1 = 5 := by decide
example : (Rgb24.new 73 153 101).level_index 4 = 6 := by decide
example : (Rgb24.new 73 153 101).level_index 7 = 7 := by decide

example : Rgb24.radix_sort [Rgb24.new 5 0 0, Rgb24.new 3 1 0, Rgb24.new 5 2 0, Rgb24.new 1 3 0]
    RGBChannel.Red
    = [Rgb24.new 1 3 0, Rgb24.new 3 1 0, Rgb24.new 5 0 0, Rgb24.new 5 2 0] := by decide

/-! Fold-commutation helpers relating the source's seeded min/max folds to
the genuine per-channel extrema. -/

theorem foldl_pair_split (cs : List Rgb24) (a b : Rgb24) :
    cs.foldl (fun (p : Rgb24 × Rgb24) val => (Rgb24.minc p.1 val, Rgb24.maxc p.2 val)) (a, b)
      = (cs.foldl Rgb24.minc a, cs.foldl Rgb24.maxc b) := by
  induction cs generalizing a b with
  | nil => rfl
  | cons c cs ih => simpa using ih (Rgb24.minc a c) (Rgb24.maxc b c)

theorem foldl_proj (op : Rgb24 → Rgb24 → Rgb24) (nop : Nat → Nat → Nat) (f : Rgb24 → Nat)
    (hcomp : ∀ x y, f (op x y) = nop (f x) (f y)) (cs : List Rgb24) (a : Rgb24) :
    f (cs.foldl op a) = cs.foldl (fun n v => nop n (f v)) (f a) := by
  induction cs generalizing a with
  | nil => rfl
  | cons c cs ih => simpa [hcomp] using ih (op a c)

theorem foldl_min_channel (f : Rgb24 → Nat) (cs : List Rgb24) (hne : cs ≠ [])
    (hval : ∀ x ∈ cs, f x < 256) :
    cs.foldl (fun n v => Nat.min n (f v)) 255 = chanMin cs f := by
  match cs with
  | [] => exact absurd rfl hne
  | c :: cs =>
    have h255 : Nat.min 255 (f c) = f c :=
      Nat.min_eq_right (Nat.le_of_lt_succ (hval c (by simp)))
    simp only [List.foldl_cons, h255, chanMin, List.map_cons, List.min?_cons', Option.getD_some]
    rw [List.foldl_map]

theorem foldl_max_channel (f : Rgb24 → Nat) (cs : List Rgb24) (hne : cs ≠ []) :
    cs.foldl (fun n v => Nat.max n (f v)) 0 = chanMax cs f := by
  match cs with
  | [] => exact absurd rfl hne
  | c :: cs =>
    simp only [List.foldl_cons, Nat.zero_max, chanMax, List.map_cons, List.max?_cons',
      Option.getD_some]
    rw [List.foldl_map]

/-- The min/max fold of `max_channel_delta` computes the genuine
channel-wise extrema on a non-empty list of `u8`-valid colors. -/
theorem max_channel_delta_eq_spec (cs : List Rgb24) (hne : cs ≠ [])
    (hval : ∀ x ∈ cs, x.isU8) :
    Rgb24.max_channel_delta cs =
      (if chanDeltaSpec cs Rgb24.r > chanDeltaSpec cs Rgb24.g ∧
          chanDeltaSpec cs Rgb24.r > chanDeltaSpec cs Rgb24.b then
        (RGBChannel.Red, chanDeltaSpec cs Rgb24.r)
      else if chanDeltaSpec cs Rgb24.g > chanDeltaSpec cs Rgb24.r ∧
          chanDeltaSpec cs Rgb24.g > chanDeltaSpec cs Rgb24.b then
        (RGBChannel.Green, chanDeltaSpec cs Rgb24.g)
      else (RGBChannel.Blue, chanDeltaSpec cs Rgb24.b)) := by
  have hminr : ∀ x y : Rgb24, (Rgb24.minc x y).r = Nat.min x.r y.r := fun _ _ => rfl
  have hming : ∀ x y : Rgb24, (Rgb24.minc x y).g = Nat.min x.g y.g := fun _ _ => rfl
  have hminb : ∀ x y : Rgb24, (Rgb24.minc x y).b = Nat.min x.b y.b := fun _ _ => rfl
  have hmaxr : ∀ x y : Rgb24, (Rgb24.maxc x y).r = Nat.max x.r y.r := fun _ _ => rfl
  have hmaxg : ∀ x y : Rgb24, (Rgb24.maxc x y).g = Nat.max x.g y.g := fun _ _ => rfl
  have hmaxb : ∀ x y : Rgb24, (Rgb24.maxc x y).b = Nat.max x.b y.b := fun _ _ => rfl
  simp only [Rgb24.max_channel_delta, foldl_pair_split]
  have er : (cs.foldl Rgb24.minc (Rgb24.new 255 255 255)).r = chanMin cs Rgb24.r := by
    rw [foldl_proj Rgb24.minc Nat.min Rgb24.r hminr]
    exact foldl_min_channel Rgb24.r cs hne (fun x hx => (hval x hx).1)
  have eg : (cs.foldl Rgb24.minc (Rgb24.new 255 255 255)).g = chanMin cs Rgb24.g := by
    rw [foldl_proj Rgb24.minc Nat.min Rgb24.g hming]
    exact foldl_min_channel Rgb24.g cs hne (fun x hx => (hval x hx).2.1)
  have eb : (cs.foldl Rgb24.minc (Rgb24.new 255 255 255)).b = chanMin cs Rgb24.b := by
    rw [foldl_proj Rgb24.minc Nat.min Rgb24.b hminb]
    exact foldl_min_channel Rgb24.b cs hne (fun x hx => (hval x hx).2.2)
  have fr : (cs.foldl Rgb24.maxc (Rgb24.new 0 0 0)).r = chanMax cs Rgb24.r := by
    rw [foldl_proj Rgb24.maxc Nat.max Rgb24.r hmaxr]
    exact foldl_max_channel Rgb24.r cs hne
  have fg : (cs.foldl Rgb24.maxc (Rgb24.new 0 0 0)).g = chanMax cs Rgb24.g := by
    rw [foldl_proj Rgb24.maxc Nat.max Rgb24.g hmaxg]
    exact foldl_max_channel Rgb24.g cs hne
  have fb : (cs.foldl Rgb24.maxc (Rgb24.new 0 0 0)).b = chanMax cs Rgb24.b := by
    rw [foldl_proj Rgb24.maxc Nat.max Rgb24.b hmaxb]
    exact foldl_max_channel Rgb24.b cs hne
  simp only [er, eg, eb, fr, fg, fb]
  rfl

/-- Claim C10: `average` is total on every slice including the empty one;
on the empty slice the `0.0 / 0.0` division yields NaN and the f32-to-u8
cast maps NaN to 0, so the result is the color (0, 0, 0). -/
theorem claim_C10 :
    Rgb24.average [] = Rgb24.new 0 0 0 ∧
    (F32.ofNat 0).div (F32.ofNat 0) = F32.nan ∧
    F32.nan.toU8 = 0 := by
  exact ⟨rfl, rfl, rfl⟩

/-- Claim C5: `max_channel_delta` returns the channel whose max-minus-min
delta is strictly greatest, Red only if strictly above both others, else
Green only if strictly above both others, else Blue; in particular a
singleton slice yields `(Blue, 0)`. -/
theorem claim_C5 (cs : List Rgb24) (c : Rgb24) (hne : cs ≠ [])
    (hval : ∀ x ∈ cs, x.isU8) (hc : c.isU8) :
    (Rgb24.max_channel_delta cs =
      if chanDeltaSpec cs Rgb24.r > chanDeltaSpec cs Rgb24.g ∧
          chanDeltaSpec cs Rgb24.r > chanDeltaSpec cs Rgb24.b then
        (RGBChannel.Red, chanDeltaSpec cs Rgb24.r)
      else if chanDeltaSpec cs Rgb24.g > chanDeltaSpec cs Rgb24.r ∧
          chanDeltaSpec cs Rgb24.g > chanDeltaSpec cs Rgb24.b then
        (RGBChannel.Green, chanDeltaSpec cs Rgb24.g)
      else (RGBChannel.Blue, chanDeltaSpec cs Rgb24.b)) ∧
    Rgb24.max_channel_delta [c] = (RGBChannel.Blue, 0) := by
  refine ⟨max_channel_delta_eq_spec cs hne hval, ?_⟩
  have h := max_channel_delta_eq_spec [c] (by simp) (by simpa using hc)
  have hmin : ∀ f : Rgb24 → Nat, chanMin [c] f = f c := by
    intro f; simp [chanMin]
  have hmax : ∀ f : Rgb24 → Nat, chanMax [c] f = f c := by
    intro f; simp [chanMax]
  simp [h, chanDeltaSpec, hmin, hmax]

/-- A Bool's `toNat` equals the `/ 2^i % 2` bit extraction. -/
theorem toNat_testBit (x i : Nat) : (Nat.testBit x i).toNat = bitAt x i := by
  rcases Nat.mod_two_eq_zero_or_one (x / 2 ^ i) with h | h <;>
    simp [Nat.testBit_to_div_mod, bitAt, Nat.shiftRight_eq_div_pow, h]

/-- The masked shift of `level_index` extracts exactly bit `7 − L`. -/
theorem level_index_term (x L : Nat) (hL : L ≤ 7) :
    (x &&& (128 >>> L)) >>> (7 - L) = bitAt x (7 - L) := by
  have hmask : (128 : Nat) >>> L = 2 ^ (7 - L) := by
    rw [Nat.shiftRight_eq_div_pow]
    show 2 ^ 7 / 2 ^ L = 2 ^ (7 - L)
    exact Nat.pow_div hL (by omega)
  rw [hmask, Nat.and_two_pow, Nat.shiftRight_eq_div_pow,
    Nat.mul_div_cancel _ (Nat.pos_pow_of_pos _ (by omega)), toNat_testBit]

/-- `level_index` packs the three extracted bits as
`(R_bit <<< 2) ||| (G_bit <<< 1) ||| B_bit`, which for 0/1 bits is
`4·R_bit + 2·G_bit + B_bit`. -/
theorem level_index_eq_bits (c : Rgb24) (L : Nat) (hL : L ≤ 7) :
    c.level_index L =
      4 * bitAt c.r (7 - L) + 2 * bitAt c.g (7 - L) + bitAt c.b (7 - L) := by
  simp only [Rgb24.level_index]
  rw [level_index_term c.r L hL, level_index_term c.g L hL, level_index_term c.b L hL]
  have h2 : ∀ n : Nat, bitAt n (7 - L) = 0 ∨ bitAt n (7 - L) = 1 := by
    intro n; exact Nat.mod_two_eq_zero_or_one _
  rcases h2 c.r with h | h <;> rcases h2 c.g with h' | h' <;> rcases h2 c.b with h'' | h'' <;>
    rw [h, h', h''] <;> decide

/-- Two Nats below 256 with equal bits 0-7 are equal. -/
theorem eq_of_bits_eq (x y : Nat) (hx : x < 256) (hy : y < 256)
    (h : ∀ i, i ≤ 7 → bitAt x i = bitAt y i) : x = y := by
  refine Nat.eq_of_testBit_eq fun i => ?_
  by_cases hi : i ≤ 7
  · have := h i hi
    rw [← toNat_testBit, ← toNat_testBit] at this
    cases hxb : Nat.testBit x i <;> cases hyb : Nat.testBit y i <;>
      simp [hxb, hyb] at this ⊢
  · have h8 : (256 : Nat) ≤ 2 ^ i := by
      calc (256 : Nat) = 2 ^ 8 := by norm_num
      _ ≤ 2 ^ i := Nat.pow_le_pow_right (by omega) (by omega)
    rw [Nat.testBit_eq_false_of_lt (by omega), Nat.testBit_eq_false_of_lt (by omega)]

/-- Claim C6: `level_index(L)` packs bit `7 − L` of R, G, B as
`(R_bit<<2) | (G_bit<<1) | B_bit`, and the 8-tuple of level indices
determines the color: equal level indices at every level L ≤ 7 force
equal colors. -/
theorem claim_C6 (c c₁ c₂ : Rgb24) (L : Nat) (hL : L ≤ 7) (_hc : c.isU8)
    (h1 : c₁.isU8) (h2 : c₂.isU8) :
    c.level_index L =
      ((bitAt c.r (7 - L)) <<< 2) ||| ((bitAt c.g (7 - L)) <<< 1) ||| (bitAt c.b (7 - L)) ∧
    ((∀ l, l ≤ 7 → c₁.level_index l = c₂.level_index l) → c₁ = c₂) := by
  constructor
  · rw [level_index_eq_bits c L hL]
    have hbits : ∀ n : Nat, bitAt n (7 - L) = 0 ∨ bitAt n (7 - L) = 1 := by
      intro n; exact Nat.mod_two_eq_zero_or_one _
    rcases hbits c.r with h | h <;> rcases hbits c.g with h' | h' <;>
      rcases hbits c.b with h'' | h'' <;> rw [h, h', h''] <;> decide
  · intro hall
    have hbit : ∀ i, i ≤ 7 →
        bitAt c₁.r i = bitAt c₂.r i ∧ bitAt c₁.g i = bitAt c₂.g i ∧
        bitAt c₁.b i = bitAt c₂.b i := by
      intro i hi
      have hl : 7 - (7 - i) = i := by omega
      have := hall (7 - i) (by omega)
      rw [level_index_eq_bits c₁ (7 - i) (by omega),
        level_index_eq_bits c₂ (7 - i) (by omega), hl] at this
      have b1 := Nat.mod_two_eq_zero_or_one (c₁.r >>> i)
      have b2 := Nat.mod_two_eq_zero_or_one (c₁.g >>> i)
      have b3 := Nat.mod_two_eq_zero_or_one (c₁.b >>> i)
      have b4 := Nat.mod_two_eq_zero_or_one (c₂.r >>> i)
      have b5 := Nat.mod_two_eq_zero_or_one (c₂.g >>> i)
      have b6 := Nat.mod_two_eq_zero_or_one (c₂.b >>> i)
      unfold bitAt at this ⊢
      omega
    obtain ⟨hr1, hg1, hb1⟩ := h1
    obtain ⟨hr2, hg2, hb2⟩ := h2
    have er := eq_of_bits_eq c₁.r c₂.r hr1 hr2 (fun i hi => (hbit i hi).1)
    have eg := eq_of_bits_eq c₁.g c₂.g hg1 hg2 (fun i hi => (hbit i hi).2.1)
    have eb := eq_of_bits_eq c₁.b c₂.b hb1 hb2 (fun i hi => (hbit i hi).2.2)
    cases c₁; cases c₂; simp_all

/-- Concrete instantiation of C5 at a two-color slice and a singleton. -/
theorem claim_C5_witness :
    Rgb24.max_channel_delta [Rgb24.new 1 2 3, Rgb24.new 5 0 3] = (RGBChannel.Red, 4) ∧
    Rgb24.max_channel_delta [Rgb24.new 7 8 9] = (RGBChannel.Blue, 0) := by
  have h := claim_C5 [Rgb24.new 1 2 3, Rgb24.new 5 0 3] (Rgb24.new 7 8 9)
    (by decide) (by decide) (by decide)
  refine ⟨?_, h.2⟩
  rw [h.1]
  decide

/-- Concrete instantiation of C6: the packed form at the repo's test color
`(73, 153, 101)`, level 1, and injectivity applied to two equal colors. -/
theorem claim_C6_witness :
    (Rgb24.new 73 153 101).level_index 1 =
      ((bitAt 73 6) <<< 2) ||| ((bitAt 153 6) <<< 1) ||| (bitAt 101 6) := by
  have h := claim_C6 (Rgb24.new 73 153 101) (Rgb24.new 1 2 3) (Rgb24.new 1 2 3) 1
    (by decide) (by decide) (by decide) (by decide)
  exact h.1

/-- Claim C2 (code evaluated at the failing input): on three copies of the
color (5,5,5) with palette size 2, `median_cut` panics instead of returning
two copies.  All bucket deltas are 0, `Iterator::max_by` resolves the tie
to the LAST bucket — the sentinel at index `len - 1` — and the subsequent
`buckets[i + 1]` indexes out of bounds.  With K = 1 (where the loop body
never runs) the expected copy behaviour does hold. -/
theorem claim_C2 :
    median_cut [Rgb24.new 5 5 5, Rgb24.new 5 5 5, Rgb24.new 5 5 5] 2 = none ∧
    median_cut [Rgb24.new 5 5 5, Rgb24.new 5 5 5, Rgb24.new 5 5 5] 1
      = some [Rgb24.new 5 5 5] := by decide

/-- Exiting step of the median-cut loop: when the bucket count already
exceeds the palette size, the loop returns the state unchanged. -/
theorem medianCutLoop_exit (fuel palette_size : Nat) (colors : List Rgb24)
    (buckets : List Bucket) (h : ¬ buckets.length ≤ palette_size) :
    medianCutLoop (fuel + 1) palette_size colors buckets = some (colors, buckets) := by
  unfold medianCutLoop
  rw [if_neg h]

/-- Claim C8, counterexample: with palette size 0 and a non-empty input the
dispatcher does NOT short-circuit; `solve` returns the median-cut engine's
output (the single bucket average), not the untouched input a
short-circuit would return. -/
theorem claim_C8_cex :
    solve Method.MedianCut [Rgb24.new 0 0 0, Rgb24.new 2 2 2] 0 = some [Rgb24.new 1 1 1] ∧
    median_cut [Rgb24.new 0 0 0, Rgb24.new 2 2 2] 0 = some [Rgb24.new 1 1 1] ∧
    some [Rgb24.new 1 1 1] ≠ some [Rgb24.new 0 0 0, Rgb24.new 2 2 2] := by decide

/-- Claim C8 as amended: for a non-empty input the guard
`palette_size >= colors.len()` fails at K = 0, so `solve` routes the call
to the selected engine; the median-cut engine then returns the single
whole-array average (its loop body never runs at K = 0). -/
theorem claim_C8_amended (m : Method) (C : List Rgb24) (h : C ≠ []) :
    solve m C 0 = (match m with
      | Method.MedianCut => median_cut C 0
      | Method.Octree => octree C 0) ∧
    median_cut C 0 = some [Rgb24.average C] := by
  have hlen : 0 < C.length := List.length_pos.mpr h
  constructor
  · unfold solve
    rw [if_neg (by omega)]
  · have hl : medianCutLoop (0 + 2) 0 C
        [Bucket.new 0 (Rgb24.max_channel_delta C).1 (Rgb24.max_channel_delta C).2,
         Bucket.new C.length (Rgb24.max_channel_delta C).1 0]
        = some (C,
          [Bucket.new 0 (Rgb24.max_channel_delta C).1 (Rgb24.max_channel_delta C).2,
           Bucket.new C.length (Rgb24.max_channel_delta C).1 0]) :=
      medianCutLoop_exit 1 0 C _ (by simp)
    have hslice : sliceRange C 0 C.length = some C := by
      unfold sliceRange
      rw [if_pos ⟨Nat.zero_le _, Nat.le_refl _⟩]
      simp
    unfold median_cut
    simp only [hl]
    simp [Bucket.new, List.mapM.loop, hslice]

/-- Concrete instantiation of C8's amended claim at a two-color input. -/
theorem claim_C8_witness :
    solve Method.MedianCut [Rgb24.new 4 4 4, Rgb24.new 0 0 0] 0
      = (match Method.MedianCut with
        | Method.MedianCut => median_cut [Rgb24.new 4 4 4, Rgb24.new 0 0 0] 0
        | Method.Octree => octree [Rgb24.new 4 4 4, Rgb24.new 0 0 0] 0) ∧
    median_cut [Rgb24.new 4 4 4, Rgb24.new 0 0 0] 0
      = some [Rgb24.average [Rgb24.new 4 4 4, Rgb24.new 0 0 0]] :=
  claim_C8_amended Method.MedianCut [Rgb24.new 4 4 4, Rgb24.new 0 0 0] (by decide)

/-- Claim C3, counterexample: on the bucket state `median_cut` reaches for
three identical colors (both deltas 0, a tie), the code's
`Iterator::max_by` selects index 1 — the sentinel — not the lowest index 0
the claim requires. -/
theorem claim_C3_cex :
    maxByDelta [Bucket.new 0 RGBChannel.Blue 0, Bucket.new 3 RGBChannel.Blue 0]
      = some (1, Bucket.new 3 RGBChannel.Blue 0) ∧
    firstMaxIdx [Bucket.new 0 RGBChannel.Blue 0, Bucket.new 3 RGBChannel.Blue 0]
      = some (0, Bucket.new 0 RGBChannel.Blue 0) ∧
    Rgb24.max_channel_delta [Rgb24.new 5 5 5, Rgb24.new 5 5 5, Rgb24.new 5 5 5]
      = (RGBChannel.Blue, 0) := by decide

/-- The `max_by` fold keeps the last maximal element: starting from an
incumbent whose index is below every enumerated index, the result is the
incumbent or an enumerated pair, its delta dominates everything seen, and
every pair with a strictly larger index has a strictly smaller delta. -/
theorem maxByFold_spec (l : List Bucket) (n : Nat) (q r : Nat × Bucket) (hq : q.1 < n)
    (h : (l.enumFrom n).foldl maxByStep (some q) = some r) :
    (r = q ∨ r ∈ l.enumFrom n) ∧ q.2.delta ≤ r.2.delta ∧
    (∀ p ∈ l.enumFrom n, p.2.delta ≤ r.2.delta ∧ (r.1 < p.1 → p.2.delta < r.2.delta)) := by
  induction l generalizing n q with
  | nil =>
    simp only [List.enumFrom_nil, List.foldl_nil, Option.some.injEq] at h
    subst h
    exact ⟨Or.inl rfl, Nat.le_refl _, by simp⟩
  | cons x xs ih =>
    rw [List.enumFrom_cons, List.foldl_cons] at h
    have hidx : ∀ p ∈ xs.enumFrom (n + 1), n + 1 ≤ p.1 := by
      intro p hp
      obtain ⟨i, px⟩ := p
      exact (List.mk_mem_enumFrom_iff_le_and_getElem?_sub.mp hp).1
    by_cases hcmp : x.delta < q.2.delta
    · rw [show maxByStep (some q) (n, x) = some q by simp [maxByStep, hcmp]] at h
      obtain ⟨hmem, hqle, hall⟩ := ih (n + 1) q (by omega) h
      refine ⟨?_, hqle, ?_⟩
      · rcases hmem with h' | h'
        · exact Or.inl h'
        · exact Or.inr (List.mem_cons_of_mem _ h')
      · intro p hp
        rcases List.mem_cons.mp hp with h' | h'
        · subst h'
          exact ⟨Nat.le_trans (Nat.le_of_lt hcmp) hqle,
            fun _ => Nat.lt_of_lt_of_le hcmp hqle⟩
        · exact hall p h'
    · rw [show maxByStep (some q) (n, x) = some (n, x) by simp [maxByStep, hcmp]] at h
      obtain ⟨hmem, hxle, hall⟩ := ih (n + 1) (n, x) (by omega) h
      have hrn : n ≤ r.1 := by
        rcases hmem with h' | h'
        · rw [h']
        · exact Nat.le_trans (Nat.le_succ n) (hidx r h')
      refine ⟨?_, Nat.le_trans (Nat.le_of_not_lt hcmp) hxle, ?_⟩
      · rcases hmem with h' | h'
        · exact Or.inr (by rw [h']; exact List.mem_cons_self _ _)
        · exact Or.inr (List.mem_cons_of_mem _ h')
      · intro p hp
        rcases List.mem_cons.mp hp with h' | h'
        · subst h'
          exact ⟨hxle, fun hlt => absurd hlt (by omega)⟩
        · exact hall p h'

/-- `maxByDelta` (the model of the loop's `Iterator::max_by` call) returns
a maximal-delta bucket at its index, and every bucket strictly after it
has strictly smaller delta (ties resolve to the last). -/
theorem maxByDelta_spec (bs : List Bucket) (i : Nat) (b : Bucket)
    (h : maxByDelta bs = some (i, b)) :
    bs[i]? = some b ∧ (∀ (j : Nat) (bj : Bucket), bs[j]? = some bj → bj.delta ≤ b.delta) ∧
    (∀ (j : Nat) (bj : Bucket), i < j → bs[j]? = some bj → bj.delta < b.delta) := by
  cases bs with
  | nil => simp [maxByDelta, List.enum] at h
  | cons b0 bs' =>
    unfold maxByDelta at h
    rw [show (b0 :: bs').enum = (0, b0) :: bs'.enumFrom 1 from rfl, List.foldl_cons,
      show maxByStep none (0, b0) = some (0, b0) from rfl] at h
    obtain ⟨hmem, hqle, hall⟩ := maxByFold_spec bs' 1 (0, b0) (i, b) (by omega) h
    have hget : (b0 :: bs')[i]? = some b := by
      rcases hmem with h' | h'
      · have h1 : i = 0 := congrArg Prod.fst h'
        have h2 : b = b0 := congrArg Prod.snd h'
        subst h1
        subst h2
        simp
      · obtain ⟨h1, h2⟩ := List.mk_mem_enumFrom_iff_le_and_getElem?_sub.mp h'
        obtain ⟨i', rfl⟩ : ∃ i', i = i' + 1 := ⟨i - 1, by omega⟩
        simpa using h2
    refine ⟨hget, ?_, ?_⟩
    · intro j bj hj
      cases j with
      | zero =>
        simp only [List.getElem?_cons_zero, Option.some.injEq] at hj
        subst hj
        exact hqle
      | succ j' =>
        refine (hall (j' + 1, bj) ?_).1
        rw [List.mk_mem_enumFrom_iff_le_and_getElem?_sub]
        simpa using hj
    · intro j bj hij hj
      cases j with
      | zero => omega
      | succ j' =>
        refine (hall (j' + 1, bj) ?_).2 hij
        rw [List.mk_mem_enumFrom_iff_le_and_getElem?_sub]
        simpa using hj

/-- Claim C3 as amended: the bucket the loop selects has maximum delta,
but among equal maxima `Iterator::max_by` picks the HIGHEST index (the
last), not the lowest; every bucket strictly after the selected one has a
strictly smaller delta, while earlier buckets may tie. -/
theorem claim_C3_amended (bs : List Bucket) (i : Nat) (b : Bucket)
    (h : maxByDelta bs = some (i, b)) :
    bs[i]? = some b ∧ (∀ (j : Nat) (bj : Bucket), bs[j]? = some bj → bj.delta ≤ b.delta) ∧
    (∀ (j : Nat) (bj : Bucket), i < j → bs[j]? = some bj → bj.delta < b.delta) :=
  maxByDelta_spec bs i b h

/-- Concrete instantiation of C3's amended claim on the tied bucket state:
index 1 (the last maximal bucket) is selected and dominates index 0. -/
theorem claim_C3_witness :
    (([Bucket.new 0 RGBChannel.Blue 0, Bucket.new 3 RGBChannel.Blue 0] :
        List Bucket)[1]? = some (Bucket.new 3 RGBChannel.Blue 0)) ∧
    (Bucket.new 0 RGBChannel.Blue 0).delta ≤ (Bucket.new 3 RGBChannel.Blue 0).delta := by
  have h := claim_C3_amended [Bucket.new 0 RGBChannel.Blue 0, Bucket.new 3 RGBChannel.Blue 0]
    1 (Bucket.new 3 RGBChannel.Blue 0) (by decide)
  exact ⟨h.1, h.2.1 0 (Bucket.new 0 RGBChannel.Blue 0) (by decide)⟩

/-- A `u8`-valid color's channel projection is below 256 for every channel
tag. -/
theorem channel_lt_256 (c : Rgb24) (hc : c.isU8) (ch : RGBChannel) :
    c.channel ch.to_usize < 256 := by
  obtain ⟨h1, h2, h3⟩ := hc
  cases ch <;> simpa [Rgb24.channel, RGBChannel.to_usize]

/-- Claim C4, counterexample: build the octree of the four colors
(0,0,0), (1,0,0), (0,1,0), (2,0,0) and reduce with K = 3.  The first
branch processed (handle 7, 3 children, 4 live leaves; 4 − 3 = 1 < 3, the
claim's termination condition) is skipped, yet the very next branch
(handle 11) and six more after it are collapsed — reduction does not
terminate at the skip. -/
theorem claim_C4_cex :
    ((Octree.new.build [Rgb24.new 0 0 0, Rgb24.new 1 0 0, Rgb24.new 0 1 0, Rgb24.new 2 0 0]).bind
        (Octree.reduceTrace · 3))
      = some [REvent.skipped 7, REvent.collapsed 11, REvent.collapsed 6, REvent.collapsed 5,
              REvent.collapsed 4, REvent.collapsed 3, REvent.collapsed 2, REvent.collapsed 1] ∧
    noCollapseAfterSkip
      [REvent.skipped 7, REvent.collapsed 11, REvent.collapsed 6, REvent.collapsed 5,
       REvent.collapsed 4, REvent.collapsed 3, REvent.collapsed 2, REvent.collapsed 1] = false ∧
    ((Octree.new.build [Rgb24.new 0 0 0, Rgb24.new 1 0 0, Rgb24.new 0 1 0, Rgb24.new 2 0 0]).bind
        (fun t => t.octants[7]?)).map Octant.child_count = some 3 ∧
    (Octree.new.build [Rgb24.new 0 0 0, Rgb24.new 1 0 0, Rgb24.new 0 1 0, Rgb24.new 2 0 0]).map
        (fun t => (t.levels.getD 7 []).length) = some 4 := by decide

/-- Claim C4 as amended: when `leaf_count - child_count + 1 < size` fires,
the branch is merely skipped (`continue`) and iteration proceeds — later
branches may still be collapsed.  The loop only terminates before
exhausting the handle list when it meets a branch with zero non-`EMPTY`
children: a completed reduction either carries one event per handle or
ends with the `stopped` break event. -/
theorem claim_C4_amended (octants : List Octant) (leaf_count size : Nat) (handles : List Nat)
    (octs' : List Octant) (tr : List REvent)
    (h : Octree.reduceGo octants leaf_count size handles = some (octs', tr)) :
    tr.length = handles.length ∨ tr.getLast?.map REvent.isStopped = some true := by
  induction handles generalizing octants leaf_count octs' tr with
  | nil =>
    unfold Octree.reduceGo at h
    simp only [Option.some.injEq, Prod.mk.injEq] at h
    exact Or.inl (by rw [← h.2]; rfl)
  | cons hd rest ih =>
    unfold Octree.reduceGo at h
    cases hoct : octants[hd]? with
    | none => rw [hoct] at h; exact absurd h (by simp)
    | some oct =>
      rw [hoct] at h
      simp only at h
      by_cases hskip : leaf_count - oct.child_count + 1 < size
      · rw [if_pos hskip] at h
        rcases Option.map_eq_some'.mp h with ⟨⟨po, ptr⟩, hrec, hp⟩
        have h1 : po = octs' := congrArg Prod.fst hp
        have h2 : REvent.skipped hd :: ptr = tr := congrArg Prod.snd hp
        subst h1
        subst h2
        rcases ih _ _ _ _ hrec with hlen | hlast
        · exact Or.inl (by simp [hlen])
        · cases ptr with
          | nil => simp at hlast
          | cons y ys => exact Or.inr (by rw [List.getLast?_cons_cons]; exact hlast)
      · rw [if_neg hskip] at h
        cases oct with
        | leaf lf => exact absurd h (by simp)
        | branch children =>
          simp only at h
          by_cases hz : (Octant.branch children).child_count = 0
          · rw [if_pos hz] at h
            simp only [Option.some.injEq, Prod.mk.injEq] at h
            rw [← h.2]
            exact Or.inr rfl
          · rw [if_neg hz] at h
            rcases Option.map_eq_some'.mp h with ⟨⟨po, ptr⟩, hrec, hp⟩
            have h1 : po = octs' := congrArg Prod.fst hp
            have h2 : REvent.collapsed hd :: ptr = tr := congrArg Prod.snd hp
            subst h1
            subst h2
            rcases ih _ _ _ _ hrec with hlen | hlast
            · exact Or.inl (by simp [hlen])
            · cases ptr with
              | nil => simp at hlast
              | cons y ys => exact Or.inr (by rw [List.getLast?_cons_cons]; exact hlast)

/-- Concrete instantiation of C4's amended claim: a one-branch arena whose
single reduction step collapses the branch; the trace covers the whole
handle list. -/
theorem claim_C4_witness :
    (([REvent.collapsed 0] : List REvent).length = ([0] : List Nat).length) ∨
    ([REvent.collapsed 0] : List REvent).getLast?.map REvent.isStopped = some true :=
  claim_C4_amended
    [Octant.branch ([1] ++ List.replicate 7 Octree.EMPTY), Octant.new_leaf 1 2 3 4]
    1 1 [0]
    [Octant.leaf ⟨1, 2, 3, 4⟩, Octant.leaf ⟨0, 0, 0, 0⟩]
    [REvent.collapsed 0] (by decide)

/-- If an `Option`-valued `mapM` succeeds, the lengths agree. -/
theorem length_mapM_option {α β : Type} (f : α → Option β) (l : List α) (l' : List β)
    (h : l.mapM f = some l') : l'.length = l.length := by
  induction l generalizing l' with
  | nil =>
    simp only [List.mapM_nil, pure, Option.some.injEq] at h
    subst h
    rfl
  | cons a as ih =>
    rw [List.mapM_cons] at h
    cases hf : f a with
    | none => rw [hf] at h; exact absurd h (by simp)
    | some b =>
      rw [hf] at h
      cases hrec : as.mapM f with
      | none => rw [hrec] at h; exact absurd h (by simp)
      | some bs =>
        rw [hrec] at h
        have hbs : b :: bs = l' := by simpa using h
        rw [← hbs]
        simp [ih bs hrec]

/-- A successful run of the median-cut loop ends with
`max buckets.len (palette_size + 1)` buckets: each iteration inserts
exactly one bucket and the loop exits as soon as the count exceeds the
palette size. -/
theorem medianCutLoop_length (fuel ps : Nat) (cs : List Rgb24) (bs : List Bucket)
    (cs' : List Rgb24) (bs' : List Bucket)
    (h : medianCutLoop fuel ps cs bs = some (cs', bs')) :
    bs'.length = max bs.length (ps + 1) := by
  induction fuel generalizing cs bs with
  | zero => exact absurd h (by simp [medianCutLoop])
  | succ fuel ih =>
    unfold medianCutLoop at h
    by_cases hg : bs.length ≤ ps
    · rw [if_pos hg] at h
      cases hmb : maxByDelta bs with
      | none => rw [hmb] at h; exact absurd h (by simp)
      | some ib =>
        obtain ⟨i, mb⟩ := ib
        rw [hmb] at h
        simp only at h
        cases hb1 : bs[i]? with
        | none => rw [hb1] at h; exact absurd h (by simp)
        | some bi =>
          cases hb2 : bs[i + 1]? with
          | none => rw [hb1, hb2] at h; exact absurd h (by simp)
          | some bi1 =>
            rw [hb1, hb2] at h
            simp only at h
            cases hsl : sliceRange cs bi.offset bi1.offset with
            | none => rw [hsl] at h; exact absurd h (by simp)
            | some bucket_colors =>
              rw [hsl] at h
              simp only at h
              cases hlo : sliceRange
                  (cs.take bi.offset ++ Rgb24.radix_sort bucket_colors mb.channel ++
                    cs.drop bi1.offset)
                  bi.offset ((bi.offset + bi1.offset) / 2) with
              | none => rw [hlo] at h; exact absurd h (by simp)
              | some lo =>
                cases hhi : sliceRange
                    (cs.take bi.offset ++ Rgb24.radix_sort bucket_colors mb.channel ++
                      cs.drop bi1.offset)
                    ((bi.offset + bi1.offset) / 2) bi1.offset with
                | none => rw [hlo, hhi] at h; exact absurd h (by simp)
                | some hi =>
                  rw [hlo, hhi] at h
                  simp only at h
                  have hi1 : i + 1 < bs.length := (List.getElem?_eq_some_iff.mp hb2).1
                  have hset : (bs.set i (Bucket.new bi.offset
                      (Rgb24.max_channel_delta lo).1 (Rgb24.max_channel_delta lo).2)).length
                      = bs.length := List.length_set ..
                  have hins : ((bs.set i (Bucket.new bi.offset
                      (Rgb24.max_channel_delta lo).1 (Rgb24.max_channel_delta lo).2)).insertIdx
                        (i + 1)
                        (Bucket.new ((bi.offset + bi1.offset) / 2)
                          (Rgb24.max_channel_delta hi).1 (Rgb24.max_channel_delta hi).2)).length
                      = bs.length + 1 := by
                    rw [List.length_insertIdx _ _ (by rw [hset]; omega), hset]
                  rw [ih _ _ h, hins]
                  omega
    · rw [if_neg hg] at h
      simp only [Option.some.injEq, Prod.mk.injEq] at h
      rw [← h.2]
      omega

/-- Claim C1, counterexample: the octree engine can return MORE than
`min(K, |C|)` colors — on the four colors (0,0,0), (1,0,0), (0,1,0),
(2,0,0) with K = 3 it returns 4 colors. -/
theorem claim_C1_cex :
    (solve Method.Octree
        [Rgb24.new 0 0 0, Rgb24.new 1 0 0, Rgb24.new 0 1 0, Rgb24.new 2 0 0] 3).map
      List.length = some 4 ∧
    (4 : Nat) ≠ min 3
      ([Rgb24.new 0 0 0, Rgb24.new 1 0 0, Rgb24.new 0 1 0, Rgb24.new 2 0 0] : List Rgb24).length
    := by decide

/-- Claim C1 as amended: for the median-cut method and K ≥ 1, whenever
`solve` returns a palette (the engine can panic on all-tied deltas), that
palette has exactly `min(K, |C|)` colors; the `K ≥ |C|` short-circuit
returns the input itself.  (The octree method does not obey the bound —
see the counterexample.) -/
theorem claim_C1_amended (C : List Rgb24) (K : Nat) (P : List Rgb24)
    (hK : 1 ≤ K) (h : solve Method.MedianCut C K = some P) :
    P.length = min K C.length := by
  unfold solve at h
  by_cases hge : K ≥ C.length
  · rw [if_pos hge] at h
    simp only [Option.some.injEq] at h
    rw [← h]
    omega
  · rw [if_neg hge] at h
    simp only at h
    unfold median_cut at h
    simp only at h
    cases hloop : medianCutLoop (K + 2) K C
        [Bucket.new 0 (Rgb24.max_channel_delta C).1 (Rgb24.max_channel_delta C).2,
         Bucket.new C.length (Rgb24.max_channel_delta C).1 0] with
    | none => rw [hloop] at h; exact absurd h (by simp)
    | some pr =>
      obtain ⟨cs', bs'⟩ := pr
      rw [hloop] at h
      simp only at h
      have hlen := medianCutLoop_length _ _ _ _ _ _ hloop
      simp only [List.length_cons, List.length_nil] at hlen
      have hP := length_mapM_option _ _ _ h
      rw [hP, List.length_zip, List.length_tail, hlen]
      omega

/-- Concrete instantiation of C1's amended claim: three reds quantized to
K = 2 yield a 2-color palette. -/
theorem claim_C1_witness :
    ([Rgb24.new 0 0 0, Rgb24.new 15 0 0] : List Rgb24).length
      = min 2 ([Rgb24.new 0 0 0, Rgb24.new 10 0 0, Rgb24.new 20 0 0] : List Rgb24).length :=
  claim_C1_amended [Rgb24.new 0 0 0, Rgb24.new 10 0 0, Rgb24.new 20 0 0] 2
    [Rgb24.new 0 0 0, Rgb24.new 15 0 0] (by decide) (by decide)

/-! Radix-sort correctness (claim C7). -/

/-- After the distribution pass over `cs`, bucket `v` holds its previous
content followed by the colors of `cs` whose channel value is `v`, in
input order. -/
theorem radix_buckets_getElem (ch : Nat) (cs : List Rgb24) :
    ∀ (bs : List (List Rgb24)), bs.length = 256 → (∀ c ∈ cs, c.channel ch < 256) →
    ∀ v, v < 256 → ∀ L, bs[v]? = some L →
    (cs.foldl (fun (bs : List (List Rgb24)) c =>
        bs.set (c.channel ch) (bs.getD (c.channel ch) [] ++ [c])) bs)[v]?
      = some (L ++ cs.filter (fun c => c.channel ch == v)) := by
  induction cs with
  | nil =>
    intro bs _ _ v _ L hL
    simpa using hL
  | cons c cs ih =>
    intro bs hlen hkey v hv L hL
    rw [List.foldl_cons]
    have hck : c.channel ch < 256 := hkey c (List.mem_cons_self ..)
    have hset_len : (bs.set (c.channel ch) (bs.getD (c.channel ch) [] ++ [c])).length = 256 := by
      rw [List.length_set, hlen]
    by_cases hv_eq : c.channel ch = v
    · have hgd : bs.getD (c.channel ch) [] = L := by
        rw [hv_eq, List.getD_eq_getElem?_getD, hL]
        rfl
      have hbv : (bs.set (c.channel ch) (bs.getD (c.channel ch) [] ++ [c]))[v]?
          = some (L ++ [c]) := by
        rw [← hv_eq, List.getElem?_set_self (by omega), hgd]
      rw [ih _ hset_len (fun x hx => hkey x (List.mem_cons_of_mem _ hx)) v hv _ hbv]
      have hfc : (c :: cs).filter (fun x => x.channel ch == v)
          = c :: cs.filter (fun x => x.channel ch == v) := by
        rw [List.filter_cons_of_pos (by simpa using hv_eq)]
      rw [hfc, List.append_assoc, List.singleton_append]
    · have hbv : (bs.set (c.channel ch) (bs.getD (c.channel ch) [] ++ [c]))[v]? = some L := by
        rw [List.getElem?_set_ne hv_eq, hL]
      rw [ih _ hset_len (fun x hx => hkey x (List.mem_cons_of_mem _ hx)) v hv _ hbv]
      rw [List.filter_cons_of_neg (by simpa using hv_eq)]

/-- The distribution fold preserves the bucket count. -/
theorem radix_foldl_length (ch : Nat) (cs : List Rgb24) (bs : List (List Rgb24)) :
    (cs.foldl (fun (bs : List (List Rgb24)) c =>
        bs.set (c.channel ch) (bs.getD (c.channel ch) [] ++ [c])) bs).length
      = bs.length := by
  induction cs generalizing bs with
  | nil => rfl
  | cons x xs ihx => rw [List.foldl_cons, ihx, List.length_set]

/-- `radix_sort` equals the concatenation, over channel values 0-255 in
order, of the input's colors with that channel value, in input order. -/
theorem radix_sort_eq (cs : List Rgb24) (channel : RGBChannel)
    (hval : ∀ c ∈ cs, c.channel channel.to_usize < 256) :
    Rgb24.radix_sort cs channel
      = ((List.range 256).map
          (fun v => cs.filter (fun c => c.channel channel.to_usize == v))).flatten := by
  have hflat : (cs.foldl (fun (bs : List (List Rgb24)) c =>
        bs.set (c.channel channel.to_usize)
          (bs.getD (c.channel channel.to_usize) [] ++ [c])) (List.replicate 256 []))
      = (List.range 256).map
          (fun v => cs.filter (fun c => c.channel channel.to_usize == v)) := by
    apply List.ext_getElem?
    intro n
    by_cases hn : n < 256
    · have hrep : (List.replicate 256 ([] : List Rgb24))[n]? = some [] :=
        List.getElem?_replicate_of_lt hn
      rw [radix_buckets_getElem channel.to_usize cs _ (by simp) hval n hn [] hrep]
      rw [List.getElem?_map, List.getElem?_range hn]
      simp
    · rw [List.getElem?_eq_none (by rw [radix_foldl_length]; simp; omega),
        List.getElem?_eq_none (by simp; omega)]
  simp only [Rgb24.radix_sort]
  rw [hflat]

/-- Summing a range-indexed family that is zero away from `k < n` yields
the value at `k`. -/
theorem sum_range_single (n k c : Nat) (hk : k < n) :
    (((List.range n).map (fun v => if k = v then c else 0)).sum) = c := by
  induction n with
  | zero => omega
  | succ n ihn =>
    rw [List.range_succ, List.map_append, List.sum_append]
    by_cases hkn : k = n
    · subst hkn
      have hz : ((List.range k).map (fun v => if k = v then c else 0)).sum = 0 := by
        apply List.sum_eq_zero
        intro x hx
        obtain ⟨v, hv, hvx⟩ := List.mem_map.mp hx
        rw [← hvx, if_neg (by have := List.mem_range.mp hv; omega)]
      simp [hz]
    · rw [ihn (by omega)]
      simp [hkn]

/-- The all-but-one-empty flatten lemma: if every bucket except `v` is
empty, the concatenation is bucket `v`. -/
theorem flatten_map_single {α : Type} (g : Nat → List α) (n v : Nat) (hv : v < n)
    (h : ∀ w, w < n → w ≠ v → g w = []) : ((List.range n).map g).flatten = g v := by
  induction n with
  | zero => omega
  | succ n ihn =>
    rw [List.range_succ, List.map_append, List.flatten_append]
    by_cases hvn : v = n
    · have hz : ((List.range n).map g).flatten = [] := by
        rw [List.flatten_eq_nil_iff]
        intro l hl
        obtain ⟨w, hw, hwl⟩ := List.mem_map.mp hl
        rw [← hwl]
        have hwn : w < n := List.mem_range.mp hw
        exact h w (by omega) (by omega)
      simp [hz, hvn]
    · rw [ihn (by omega) (fun w hw => h w (Nat.lt_succ_of_lt hw))]
      simp [h n (Nat.lt_succ_self n) (by omega)]

/-- `radix_sort` returns a permutation of its input. -/
theorem radix_sort_perm (cs : List Rgb24) (channel : RGBChannel)
    (hkey : ∀ c ∈ cs, c.channel channel.to_usize < 256) :
    (Rgb24.radix_sort cs channel).Perm cs := by
  rw [radix_sort_eq cs channel hkey]
  rw [List.perm_iff_count]
  intro a
  rw [List.count_flatten, List.map_map]
  by_cases ha : a ∈ cs
  · have hac : ∀ v : Nat,
        (cs.filter (fun c => c.channel channel.to_usize == v)).count a
          = if a.channel channel.to_usize = v then cs.count a else 0 := by
      intro v
      by_cases hav : a.channel channel.to_usize = v
      · rw [if_pos hav, List.count_filter (by simpa using hav)]
      · rw [if_neg hav]
        rw [List.count_eq_zero]
        intro hmem
        exact hav (by simpa using (List.mem_filter.mp hmem).2)
    have hsum : ((List.range 256).map
          (fun v => (cs.filter (fun c => c.channel channel.to_usize == v)).count a)).sum
        = cs.count a := by
      calc ((List.range 256).map
            (fun v => (cs.filter (fun c => c.channel channel.to_usize == v)).count a)).sum
          = ((List.range 256).map
            (fun v => if a.channel channel.to_usize = v then cs.count a else 0)).sum := by
            congr 1
            exact List.map_congr_left (fun v _ => hac v)
        _ = cs.count a := sum_range_single 256 _ _ (hkey a ha)
    simpa using hsum
  · have hz : ∀ v : Nat,
        (cs.filter (fun c => c.channel channel.to_usize == v)).count a = 0 := by
      intro v
      rw [List.count_eq_zero]
      intro hmem
      exact ha (List.mem_of_mem_filter hmem)
    have hz2 : (cs.count a) = 0 := List.count_eq_zero.mpr ha
    rw [hz2]
    apply List.sum_eq_zero
    intro x hx
    obtain ⟨v, _, hvx⟩ := List.mem_map.mp hx
    rw [← hvx]
    exact hz v

/-- Claim C7: `radix_sort` rearranges the slice into a permutation of its
original contents that is nondecreasing in the chosen channel and stable —
colors with equal values in that channel keep their original relative
order (their filtered subsequence is unchanged). -/
theorem claim_C7 (cs : List Rgb24) (channel : RGBChannel) (hval : ∀ c ∈ cs, c.isU8) :
    (Rgb24.radix_sort cs channel).Perm cs ∧
    (Rgb24.radix_sort cs channel).Pairwise
      (fun a b => a.channel channel.to_usize ≤ b.channel channel.to_usize) ∧
    (∀ v : Nat, (Rgb24.radix_sort cs channel).filter
        (fun c => c.channel channel.to_usize == v)
      = cs.filter (fun c => c.channel channel.to_usize == v)) := by
  have hkey : ∀ c ∈ cs, c.channel channel.to_usize < 256 :=
    fun c hc => channel_lt_256 c (hval c hc) channel
  refine ⟨radix_sort_perm cs channel hkey, ?_, ?_⟩
  · rw [radix_sort_eq cs channel hkey]
    rw [List.pairwise_flatten]
    constructor
    · intro l hl
      obtain ⟨v, _, hvl⟩ := List.mem_map.mp hl
      apply List.pairwise_of_forall_mem_list
      intro a hal b hbl
      rw [← hvl] at hal hbl
      have ha : a.channel channel.to_usize = v := by
        simpa using (List.mem_filter.mp hal).2
      have hb : b.channel channel.to_usize = v := by
        simpa using (List.mem_filter.mp hbl).2
      omega
    · rw [List.pairwise_map]
      refine (List.pairwise_lt_range 256).imp ?_
      intro v w hvw
      intro x hx y hy
      have hxv : x.channel channel.to_usize = v := by
        simpa using (List.mem_filter.mp hx).2
      have hyw : y.channel channel.to_usize = w := by
        simpa using (List.mem_filter.mp hy).2
      omega
  · intro v
    rw [radix_sort_eq cs channel hkey]
    rw [List.filter_flatten, List.map_map]
    by_cases hv : v < 256
    · rw [flatten_map_single _ 256 v hv]
      · simp only [Function.comp, List.filter_filter]
        apply List.filter_congr
        intro c _
        by_cases hcv : c.channel channel.to_usize = v <;> simp [hcv]
      · intro w _ hwv
        simp only [Function.comp]
        rw [List.filter_filter]
        apply List.filter_eq_nil_iff.mpr
        intro c _
        simp only [Bool.and_eq_true, beq_iff_eq]
        omega
    · have h1 : cs.filter (fun c => c.channel channel.to_usize == v) = [] := by
        apply List.filter_eq_nil_iff.mpr
        intro c hc
        have := hkey c hc
        simp only [beq_iff_eq]
        omega
      rw [h1]
      rw [List.flatten_eq_nil_iff]
      intro l hl
      obtain ⟨w, _, hwl⟩ := List.mem_map.mp hl
      rw [← hwl]
      simp only [Function.comp]
      rw [List.filter_filter]
      apply List.filter_eq_nil_iff.mpr
      intro c hc
      have := hkey c hc
      simp only [Bool.and_eq_true, beq_iff_eq]
      omega

/-- Concrete instantiation of C7 on a four-color slice keyed by Red. -/
theorem claim_C7_witness :
    (Rgb24.radix_sort
        [Rgb24.new 5 0 0, Rgb24.new 3 1 0, Rgb24.new 5 2 0, Rgb24.new 1 3 0]
        RGBChannel.Red).Perm
      [Rgb24.new 5 0 0, Rgb24.new 3 1 0, Rgb24.new 5 2 0, Rgb24.new 1 3 0] ∧
    (Rgb24.radix_sort
        [Rgb24.new 5 0 0, Rgb24.new 3 1 0, Rgb24.new 5 2 0, Rgb24.new 1 3 0]
        RGBChannel.Red).filter (fun c => c.channel RGBChannel.Red.to_usize == 5)
      = [Rgb24.new 5 0 0, Rgb24.new 3 1 0, Rgb24.new 5 2 0, Rgb24.new 1 3 0].filter
          (fun c => c.channel RGBChannel.Red.to_usize == 5) := by
  have h := claim_C7 [Rgb24.new 5 0 0, Rgb24.new 3 1 0, Rgb24.new 5 2 0, Rgb24.new 1 3 0]
    RGBChannel.Red (by decide)
  exact ⟨h.1, h.2.2 5⟩

/-! Hull lemmas (claim C9). -/

theorem sliceRange_eq_sliceL (cs : List Rgb24) (s e : Nat) (l : List Rgb24)
    (h : sliceRange cs s e = some l) : l = sliceL cs s e ∧ s ≤ e ∧ e ≤ cs.length := by
  unfold sliceRange at h
  by_cases hc : s ≤ e ∧ e ≤ cs.length
  · rw [if_pos hc] at h
    exact ⟨by simpa [sliceL] using h.symm, hc⟩
  · rw [if_neg hc] at h
    exact absurd h (by simp)

theorem chanMin_le_of_mem (cs : List Rgb24) (f : Rgb24 → Nat) (x : Rgb24) (hx : x ∈ cs) :
    chanMin cs f ≤ f x := by
  unfold chanMin
  cases hm : (cs.map f).min? with
  | none => simp
  | some m =>
    have := (List.min?_eq_some_iff'.mp hm).2 (f x) (List.mem_map_of_mem f hx)
    simpa using this

theorem le_chanMax_of_mem (cs : List Rgb24) (f : Rgb24 → Nat) (x : Rgb24) (hx : x ∈ cs) :
    f x ≤ chanMax cs f := by
  unfold chanMax
  cases hm : (cs.map f).max? with
  | none =>
    rw [List.max?_eq_none_iff] at hm
    rw [List.map_eq_nil_iff] at hm
    exact absurd (hm ▸ hx) (List.not_mem_nil x)
  | some m =>
    have := (List.max?_eq_some_iff'.mp hm).2 (f x) (List.mem_map_of_mem f hx)
    simpa using this

theorem chanMax_le_255 (cs : List Rgb24) (f : Rgb24 → Nat) (h : ∀ c ∈ cs, f c < 256) :
    chanMax cs f ≤ 255 := by
  unfold chanMax
  cases hm : (cs.map f).max? with
  | none => simp
  | some m =>
    obtain ⟨hmem, -⟩ := List.max?_eq_some_iff'.mp hm
    obtain ⟨c, hc, hcm⟩ := List.mem_map.mp hmem
    have := h c hc
    simp only [Option.getD_some]
    omega

/-- Every input color lies in the input hull. -/
theorem mem_inHull (cs : List Rgb24) (x : Rgb24) (hx : x ∈ cs) : inHull cs x :=
  ⟨chanMin_le_of_mem cs Rgb24.r x hx, le_chanMax_of_mem cs Rgb24.r x hx,
   chanMin_le_of_mem cs Rgb24.g x hx, le_chanMax_of_mem cs Rgb24.g x hx,
   chanMin_le_of_mem cs Rgb24.b x hx, le_chanMax_of_mem cs Rgb24.b x hx⟩

theorem sum_ge (l : List Nat) (lo : Nat) (h : ∀ x ∈ l, lo ≤ x) :
    lo * l.length ≤ l.sum := by
  induction l with
  | nil => simp
  | cons a as ih =>
    have h1 := ih (fun x hx => h x (List.mem_cons_of_mem _ hx))
    have h2 := h a (List.mem_cons_self ..)
    simp only [List.length_cons, List.sum_cons, Nat.mul_succ]
    omega

theorem sum_le (l : List Nat) (hi : Nat) (h : ∀ x ∈ l, x ≤ hi) :
    l.sum ≤ hi * l.length := by
  induction l with
  | nil => simp
  | cons a as ih =>
    have h1 := ih (fun x hx => h x (List.mem_cons_of_mem _ hx))
    have h2 := h a (List.mem_cons_self ..)
    simp only [List.length_cons, List.sum_cons, Nat.mul_succ]
    omega

/-- The f32 average pipeline (exact division, round half away, `as u8`
cast) stays within integer bounds enclosing the sum. -/
theorem avg_component (s n lo hi : Nat) (hn : 1 ≤ n) (hlo : lo * n ≤ s) (hhi : s ≤ hi * n)
    (h255 : hi ≤ 255) :
    lo ≤ ((F32.ofNat s).div (F32.ofNat n)).round.toU8 ∧
      ((F32.ofNat s).div (F32.ofNat n)).round.toU8 ≤ hi := by
  have hne : ¬ (n = 0) := by omega
  simp only [F32.ofNat, F32.div, if_neg hne, F32.round, F32.toU8, Nat.mul_one, Nat.one_mul,
    Nat.div_one]
  have hlow : lo ≤ (2 * s + n) / (2 * n) := by
    rw [Nat.le_div_iff_mul_le (by omega)]
    have hr : lo * (2 * n) = 2 * (lo * n) := by ring
    omega
  have hup : (2 * s + n) / (2 * n) < hi + 1 := by
    rw [Nat.div_lt_iff_lt_mul (by omega)]
    have hr : (hi + 1) * (2 * n) = 2 * (hi * n) + 2 * n := by ring
    omega
  refine ⟨Nat.le_min.mpr ⟨by omega, hlow⟩, Nat.le_trans (Nat.min_le_right ..) (by omega)⟩

/-- The channel-sum fold of `average` computes the three mapped sums. -/
theorem average_fold (l : List Rgb24) :
    l.foldl (fun (sum : Nat × Nat × Nat) val =>
        (sum.1 + val.r, sum.2.1 + val.g, sum.2.2 + val.b)) (0, 0, 0)
      = ((l.map Rgb24.r).sum, (l.map Rgb24.g).sum, (l.map Rgb24.b).sum) := by
  suffices h : ∀ a b c : Nat, l.foldl (fun (sum : Nat × Nat × Nat) val =>
      (sum.1 + val.r, sum.2.1 + val.g, sum.2.2 + val.b)) (a, b, c)
      = (a + (l.map Rgb24.r).sum, b + (l.map Rgb24.g).sum, c + (l.map Rgb24.b).sum) by
    simpa using h 0 0 0
  induction l with
  | nil => intro a b c; simp
  | cons x xs ih =>
    intro a b c
    simp only [List.foldl_cons, List.map_cons, List.sum_cons, ih]
    simp only [Prod.mk.injEq]
    omega

/-- The average of a non-empty list of colors drawn from `cs` lies in the
hull of `cs`. -/
theorem average_mem_hull (l cs : List Rgb24) (hne : l ≠ []) (hsub : ∀ y ∈ l, y ∈ cs)
    (hval : ∀ c ∈ cs, c.isU8) : inHull cs (Rgb24.average l) := by
  have hlen : 1 ≤ l.length := List.length_pos.mpr hne
  have hcomp : ∀ f : Rgb24 → Nat, (∀ c ∈ cs, f c < 256) →
      chanMin cs f ≤ ((F32.ofNat ((l.map f).sum)).div (F32.ofNat l.length)).round.toU8 ∧
      ((F32.ofNat ((l.map f).sum)).div (F32.ofNat l.length)).round.toU8 ≤ chanMax cs f := by
    intro f hf
    have hlo : chanMin cs f * (l.map f).length ≤ (l.map f).sum := by
      apply sum_ge
      intro x hx
      obtain ⟨y, hy, hyx⟩ := List.mem_map.mp hx
      rw [← hyx]
      exact chanMin_le_of_mem cs f y (hsub y hy)
    have hhi : (l.map f).sum ≤ chanMax cs f * (l.map f).length := by
      apply sum_le
      intro x hx
      obtain ⟨y, hy, hyx⟩ := List.mem_map.mp hx
      rw [← hyx]
      exact le_chanMax_of_mem cs f y (hsub y hy)
    rw [List.length_map] at hlo hhi
    exact avg_component _ _ _ _ hlen hlo hhi (chanMax_le_255 cs f hf)
  have hvalr : ∀ c ∈ cs, Rgb24.r c < 256 := fun c hc => (hval c hc).1
  have hvalg : ∀ c ∈ cs, Rgb24.g c < 256 := fun c hc => (hval c hc).2.1
  have hvalb : ∀ c ∈ cs, Rgb24.b c < 256 := fun c hc => (hval c hc).2.2
  have hr := hcomp Rgb24.r hvalr
  have hg := hcomp Rgb24.g hvalg
  have hb := hcomp Rgb24.b hvalb
  simp only [Rgb24.average, average_fold]
  exact ⟨hr.1, hr.2, hg.1, hg.2, hb.1, hb.2⟩

/-! Structural helpers for the median-cut loop invariant. -/

theorem chain'_rel_of_getElem? {α : Type} {R : α → α → Prop} :
    ∀ (l : List α) (i : Nat) (a b : α), List.Chain' R l →
    l[i]? = some a → l[i + 1]? = some b → R a b := by
  intro l
  induction l with
  | nil => intro i a b _ h; simp at h
  | cons x xs ih =>
    intro i a b hch ha hb
    cases i with
    | zero =>
      simp only [List.getElem?_cons_zero, Option.some.injEq] at ha
      subst ha
      cases xs with
      | nil => simp at hb
      | cons y ys =>
        simp only [List.getElem?_cons_succ, List.getElem?_cons_zero, Option.some.injEq] at hb
        subst hb
        exact (List.chain'_cons.mp hch).1
    | succ j =>
      simp only [List.getElem?_cons_succ] at ha hb
      exact ih j a b (List.Chain'.tail hch) ha hb

theorem chain'_imp_mem {α : Type} {R S : α → α → Prop} :
    ∀ (l : List α), (∀ a ∈ l, ∀ b ∈ l, R a b → S a b) → List.Chain' R l → List.Chain' S l := by
  intro l
  induction l with
  | nil => intro _ _; exact List.chain'_nil
  | cons x xs ih =>
    intro hmem hch
    cases xs with
    | nil => exact List.chain'_singleton x
    | cons y ys =>
      rw [List.chain'_cons] at hch ⊢
      refine ⟨hmem x (by simp) y (by simp) hch.1, ?_⟩
      exact ih (fun a ha b hb => hmem a (List.mem_cons_of_mem _ ha) b (List.mem_cons_of_mem _ hb))
        hch.2

theorem set_append_cons {α : Type} (pre : List α) (x : α) (rest : List α) (b : α) :
    (pre ++ x :: rest).set pre.length b = pre ++ b :: rest := by
  induction pre with
  | nil => rfl
  | cons p ps ih => simp [List.set_cons_succ, ih]

theorem insertIdx_append_cons {α : Type} (pre : List α) (x : α) (rest : List α) (m : α) :
    (pre ++ x :: rest).insertIdx (pre.length + 1) m = pre ++ x :: m :: rest := by
  induction pre with
  | nil => rfl
  | cons p ps ih => simpa [List.insertIdx_succ_cons] using ih

theorem getElem?_split2 {α : Type} (l : List α) (i : Nat) (x y : α)
    (h1 : l[i]? = some x) (h2 : l[i + 1]? = some y) :
    l = l.take i ++ x :: y :: l.drop (i + 2) ∧ (l.take i).length = i := by
  obtain ⟨hi, hx⟩ := List.getElem?_eq_some_iff.mp h1
  obtain ⟨hi1, hy⟩ := List.getElem?_eq_some_iff.mp h2
  constructor
  · conv_lhs => rw [← List.take_append_drop i l]
    congr 1
    rw [List.drop_eq_getElem_cons hi, hx]
    congr 1
    rw [List.drop_eq_getElem_cons hi1, hy]
  · rw [List.length_take]
    omega

/-- A positive widest-channel delta needs at least two colors. -/
theorem mcd_delta_pos_len (l : List Rgb24) (hval : ∀ c ∈ l, c.isU8)
    (h : 0 < (Rgb24.max_channel_delta l).2) : 2 ≤ l.length := by
  match l with
  | [] => rw [show Rgb24.max_channel_delta [] = (RGBChannel.Blue, 0) from rfl] at h; omega
  | [c] =>
    exfalso
    have hspec := max_channel_delta_eq_spec [c] (by simp) (by simpa using hval c (by simp))
    have hmin : ∀ f : Rgb24 → Nat, chanMin [c] f = f c := by intro f; simp [chanMin]
    have hmax : ∀ f : Rgb24 → Nat, chanMax [c] f = f c := by intro f; simp [chanMax]
    rw [hspec] at h
    simp [chanDeltaSpec, hmin, hmax] at h
  | a :: b :: rest => simp only [List.length_cons]; omega

/-- Slices below a preserved prefix are unchanged. -/
theorem sliceL_take_eq (cs cs1 : List Rgb24) (s o o' : Nat) (ho : o' ≤ s)
    (htake : cs1.take s = cs.take s) : sliceL cs1 o o' = sliceL cs o o' := by
  have key : ∀ (w : List Rgb24), sliceL w o o' = ((w.take s).drop o).take (o' - o) := by
    intro w
    rw [List.drop_take]
    unfold sliceL
    rw [List.take_take]
    congr 1
    omega
  rw [key cs1, key cs, htake]

/-- Slices above a preserved suffix are unchanged. -/
theorem sliceL_drop_eq (cs cs1 : List Rgb24) (e o o' : Nat) (ho : e ≤ o)
    (hdrop : cs1.drop e = cs.drop e) : sliceL cs1 o o' = sliceL cs o o' := by
  have key : ∀ (w : List Rgb24), sliceL w o o' = ((w.drop e).drop (o - e)).take (o' - o) := by
    intro w
    unfold sliceL
    rw [List.drop_drop]
    congr 2
    omega
  rw [key cs1, key cs, hdrop]

/-- Slice membership. -/
theorem sliceL_subset (cs : List Rgb24) (s e : Nat) : ∀ c ∈ sliceL cs s e, c ∈ cs :=
  fun _ hc => List.mem_of_mem_drop (List.mem_of_mem_take hc)

/-- One successful splitting iteration of the median-cut loop preserves
`MCInv` (the recursive call is abstracted by `ih`). -/
theorem medianCutLoop_inv_step (Cc : List Rgb24) (hvalC : ∀ c ∈ Cc, c.isU8) (ps fuel : Nat)
    (cs : List Rgb24) (bs : List Bucket) (cs' : List Rgb24) (bs' : List Bucket)
    (i : Nat) (mb bi bi1 : Bucket) (bucket_colors lo hi : List Rgb24)
    (hinv : MCInv Cc cs bs)
    (hmb : maxByDelta bs = some (i, mb))
    (hb1 : bs[i]? = some bi)
    (hb2 : bs[i + 1]? = some bi1)
    (hsl : sliceRange cs bi.offset bi1.offset = some bucket_colors)
    (hlo : sliceRange
      (cs.take bi.offset ++ Rgb24.radix_sort bucket_colors mb.channel ++ cs.drop bi1.offset)
      bi.offset ((bi.offset + bi1.offset) / 2) = some lo)
    (hhi : sliceRange
      (cs.take bi.offset ++ Rgb24.radix_sort bucket_colors mb.channel ++ cs.drop bi1.offset)
      ((bi.offset + bi1.offset) / 2) bi1.offset = some hi)
    (h : medianCutLoop fuel ps
      (cs.take bi.offset ++ Rgb24.radix_sort bucket_colors mb.channel ++ cs.drop bi1.offset)
      ((bs.set i (Bucket.new bi.offset (Rgb24.max_channel_delta lo).1
          (Rgb24.max_channel_delta lo).2)).insertIdx (i + 1)
        (Bucket.new ((bi.offset + bi1.offset) / 2) (Rgb24.max_channel_delta hi).1
          (Rgb24.max_channel_delta hi).2)) = some (cs', bs'))
    (ih : ∀ (cs : List Rgb24) (bs : List Bucket) (cs' : List Rgb24) (bs' : List Bucket),
      MCInv Cc cs bs → medianCutLoop fuel ps cs bs = some (cs', bs') → MCInv Cc cs' bs') :
    MCInv Cc cs' bs' := by
  obtain ⟨hA, hB, hC, hD, hE, hF⟩ := hinv
  obtain ⟨hspec_get, hspec_max, hspec_strict⟩ := maxByDelta_spec bs i mb hmb
  have hmbbi : bi = mb := by
    rw [hb1] at hspec_get
    exact (Option.some.injEq ..).mp hspec_get
  have hi1lt : i + 1 < bs.length := (List.getElem?_eq_some_iff.mp hb2).1
  -- the sentinel
  cases hbl : bs.getLast? with
  | none => rw [hbl] at hE; exact absurd hE (by simp)
  | some blast =>
    rw [hbl] at hE hF
    simp at hE hF
    have hlast_idx : bs[bs.length - 1]? = some blast := by
      rw [← List.getLast?_eq_getElem?]
      exact hbl
    have hdelta_pos : 0 < bi.delta := by
      by_cases hil : i = bs.length - 1
      · exfalso
        have hnone : bs[i + 1]? = none := List.getElem?_eq_none (by omega)
        rw [hnone] at hb2
        exact absurd hb2 (by simp)
      · have := hspec_strict (bs.length - 1) blast (by omega) hlast_idx
        rw [hmbbi]
        omega
    -- adjacency facts
    have hadj : offLT bi bi1 := chain'_rel_of_getElem? bs i bi bi1 hC hb1 hb2
    have hDadj : bi.delta
        = (Rgb24.max_channel_delta (sliceL cs bi.offset bi1.offset)).2 :=
      chain'_rel_of_getElem? bs i bi bi1 hD hb1 hb2
    obtain ⟨hbc_eq, hse, helen⟩ := sliceRange_eq_sliceL cs bi.offset bi1.offset bucket_colors hsl
    have hval_slice : ∀ c ∈ bucket_colors, c.isU8 := by
      intro c hc
      rw [hbc_eq] at hc
      exact hvalC c (hB c (sliceL_subset cs _ _ c hc))
    have hlen2 : 2 ≤ bucket_colors.length := by
      apply mcd_delta_pos_len bucket_colors hval_slice
      rw [← hbc_eq] at hDadj
      omega
    have hbclen : bucket_colors.length = min (bi1.offset - bi.offset) (cs.length - bi.offset) := by
      rw [hbc_eq]
      unfold sliceL
      rw [List.length_take, List.length_drop]
    have hegap : bi.offset + 2 ≤ bi1.offset := by omega
    have hmgap : bi.offset < (bi.offset + bi1.offset) / 2 ∧
        (bi.offset + bi1.offset) / 2 < bi1.offset := by omega
    -- the permuted colors
    have hperm : (Rgb24.radix_sort bucket_colors mb.channel).Perm bucket_colors :=
      radix_sort_perm _ _ (fun c hc => channel_lt_256 c (hval_slice c hc) mb.channel)
    have htklen : (cs.take bi.offset).length = bi.offset := by
      rw [List.length_take]
      omega
    have hcs1len : (cs.take bi.offset ++ Rgb24.radix_sort bucket_colors mb.channel ++
        cs.drop bi1.offset).length = cs.length := by
      simp only [List.length_append, htklen, hperm.length_eq, List.length_drop]
      omega
    have hcs1mem : ∀ c ∈ cs.take bi.offset ++ Rgb24.radix_sort bucket_colors mb.channel ++
        cs.drop bi1.offset, c ∈ Cc := by
      intro c hc
      rcases List.mem_append.mp hc with h12 | h4
      · rcases List.mem_append.mp h12 with h1 | h3
        · exact hB c (List.mem_of_mem_take h1)
        · have := hperm.mem_iff.mp h3
          rw [hbc_eq] at this
          exact hB c (sliceL_subset cs _ _ c this)
      · exact hB c (List.mem_of_mem_drop h4)
    have htake_pres : (cs.take bi.offset ++ Rgb24.radix_sort bucket_colors mb.channel ++
        cs.drop bi1.offset).take bi.offset = cs.take bi.offset := by
      rw [List.append_assoc, List.take_left' htklen]
    have hdrop_pres : (cs.take bi.offset ++ Rgb24.radix_sort bucket_colors mb.channel ++
        cs.drop bi1.offset).drop bi1.offset = cs.drop bi1.offset := by
      apply List.drop_left'
      rw [List.length_append, htklen, hperm.length_eq]
      omega
    -- slice facts for the two halves
    obtain ⟨hlo_eq, hlo_se, hlo_len⟩ := sliceRange_eq_sliceL _ _ _ lo hlo
    obtain ⟨hhi_eq, hhi_se, hhi_len⟩ := sliceRange_eq_sliceL _ _ _ hi hhi
    -- bucket list decomposition
    obtain ⟨hdecomp, hpre_len⟩ := getElem?_split2 bs i bi bi1 hb1 hb2
    have hset : bs.set i (Bucket.new bi.offset (Rgb24.max_channel_delta lo).1
        (Rgb24.max_channel_delta lo).2)
        = bs.take i ++ Bucket.new bi.offset (Rgb24.max_channel_delta lo).1
            (Rgb24.max_channel_delta lo).2 :: bi1 :: bs.drop (i + 2) := by
      have hsac := set_append_cons (bs.take i) bi (bi1 :: bs.drop (i + 2))
        (Bucket.new bi.offset (Rgb24.max_channel_delta lo).1 (Rgb24.max_channel_delta lo).2)
      rw [hpre_len] at hsac
      conv_lhs => rw [hdecomp]
      exact hsac
    have hins : (bs.set i (Bucket.new bi.offset (Rgb24.max_channel_delta lo).1
        (Rgb24.max_channel_delta lo).2)).insertIdx (i + 1)
        (Bucket.new ((bi.offset + bi1.offset) / 2) (Rgb24.max_channel_delta hi).1
          (Rgb24.max_channel_delta hi).2)
        = bs.take i ++ Bucket.new bi.offset (Rgb24.max_channel_delta lo).1
            (Rgb24.max_channel_delta lo).2 ::
          Bucket.new ((bi.offset + bi1.offset) / 2) (Rgb24.max_channel_delta hi).1
            (Rgb24.max_channel_delta hi).2 :: bi1 :: bs.drop (i + 2) := by
      have hiac := insertIdx_append_cons (bs.take i)
        (Bucket.new bi.offset (Rgb24.max_channel_delta lo).1 (Rgb24.max_channel_delta lo).2)
        (bi1 :: bs.drop (i + 2))
        (Bucket.new ((bi.offset + bi1.offset) / 2) (Rgb24.max_channel_delta hi).1
          (Rgb24.max_channel_delta hi).2)
      rw [hpre_len] at hiac
      rw [hset]
      exact hiac
    -- offset bounds of the surrounding buckets
    have hPW : List.Pairwise offLT bs := List.chain'_iff_pairwise.mp hC
    rw [hdecomp] at hPW
    rw [List.pairwise_append] at hPW
    obtain ⟨hPW_pre, hPW_rest, hPW_cross⟩ := hPW
    have hpre_lt : ∀ a ∈ bs.take i, a.offset < bi.offset := by
      intro a ha
      exact hPW_cross a ha bi (by simp)
    have hpost_gt : ∀ b ∈ bs.drop (i + 2), bi1.offset < b.offset := by
      intro b hb
      have h1 := List.pairwise_cons.mp hPW_rest
      have h2 := List.pairwise_cons.mp h1.2
      exact h2.1 b hb
    -- old chains decomposed
    rw [hdecomp] at hC hD
    rw [List.chain'_append] at hC hD
    obtain ⟨hC_pre, hC_rest, hC_link⟩ := hC
    obtain ⟨hD_pre, hD_rest, hD_link⟩ := hD
    -- new offset chain
    have hC1 : List.Chain' offLT
        (bs.take i ++ Bucket.new bi.offset (Rgb24.max_channel_delta lo).1
            (Rgb24.max_channel_delta lo).2 ::
          Bucket.new ((bi.offset + bi1.offset) / 2) (Rgb24.max_channel_delta hi).1
            (Rgb24.max_channel_delta hi).2 :: bi1 :: bs.drop (i + 2)) := by
      rw [List.chain'_append]
      refine ⟨hC_pre, ?_, ?_⟩
      · rw [List.chain'_cons]
        refine ⟨by unfold offLT; simp [Bucket.new]; omega, ?_⟩
        rw [List.chain'_cons]
        refine ⟨by unfold offLT; simp [Bucket.new]; omega, ?_⟩
        exact hC_rest.tail
      · intro x hx y hy
        simp only [List.head?_cons, Option.mem_def, Option.some.injEq] at hy
        have := hC_link x hx bi (by simp)
        unfold offLT at this ⊢
        rw [← hy]
        simpa [Bucket.new] using this
    -- new delta chain
    have hD1 : List.Chain' (fun b b' => b.delta = (Rgb24.max_channel_delta
        (sliceL (cs.take bi.offset ++ Rgb24.radix_sort bucket_colors mb.channel ++
          cs.drop bi1.offset) b.offset b'.offset)).2)
        (bs.take i ++ Bucket.new bi.offset (Rgb24.max_channel_delta lo).1
            (Rgb24.max_channel_delta lo).2 ::
          Bucket.new ((bi.offset + bi1.offset) / 2) (Rgb24.max_channel_delta hi).1
            (Rgb24.max_channel_delta hi).2 :: bi1 :: bs.drop (i + 2)) := by
      rw [List.chain'_append]
      refine ⟨?_, ?_, ?_⟩
      · refine chain'_imp_mem _ ?_ hD_pre
        intro a _ b hb hrel
        rw [hrel, sliceL_take_eq cs _ bi.offset a.offset b.offset
          (le_of_lt (hpre_lt b hb)) htake_pres]
      · rw [List.chain'_cons]
        constructor
        · simp only [Bucket.new]
          rw [hlo_eq]
        rw [List.chain'_cons]
        constructor
        · simp only [Bucket.new]
          rw [hhi_eq]
        refine chain'_imp_mem _ ?_ hD_rest.tail
        intro a ha b _ hrel
        rw [hrel, sliceL_drop_eq cs _ bi1.offset a.offset b.offset ?_ hdrop_pres]
        rcases List.mem_cons.mp ha with h1 | h1
        · rw [h1]
        · exact le_of_lt (hpost_gt a h1)
      · intro x hx y hy
        simp only [List.head?_cons, Option.mem_def, Option.some.injEq] at hy
        have hold := hD_link x hx bi (by simp)
        rw [← hy]
        simp only [Bucket.new]
        rw [hold, sliceL_take_eq cs _ bi.offset x.offset bi.offset (le_refl _) htake_pres]
    -- the sentinel is preserved
    have hlast_pres : (bs.take i ++ Bucket.new bi.offset (Rgb24.max_channel_delta lo).1
            (Rgb24.max_channel_delta lo).2 ::
          Bucket.new ((bi.offset + bi1.offset) / 2) (Rgb24.max_channel_delta hi).1
            (Rgb24.max_channel_delta hi).2 :: bi1 :: bs.drop (i + 2)).getLast?
        = some blast := by
      have h1 : (bi1 :: bs.drop (i + 2)).getLast? = some blast := by
        have h2 : bs.getLast? = some blast := hbl
        rw [hdecomp] at h2
        rw [List.getLast?_append] at h2
        have h3 : (bi :: bi1 :: bs.drop (i + 2)).getLast? = (bi1 :: bs.drop (i + 2)).getLast? := by
          rw [List.getLast?_cons_cons]
        rw [h3] at h2
        cases hgl : (bi1 :: bs.drop (i + 2)).getLast? with
        | none => simp at hgl
        | some z =>
          rw [hgl] at h2
          simpa using h2
      rw [List.getLast?_append]
      have h4 : (Bucket.new bi.offset (Rgb24.max_channel_delta lo).1
            (Rgb24.max_channel_delta lo).2 ::
          Bucket.new ((bi.offset + bi1.offset) / 2) (Rgb24.max_channel_delta hi).1
            (Rgb24.max_channel_delta hi).2 :: bi1 :: bs.drop (i + 2)).getLast?
          = some blast := by
        rw [List.getLast?_cons_cons, List.getLast?_cons_cons]
        exact h1
      rw [h4]
      rfl
    refine ih _ _ cs' bs' ⟨?_, hcs1mem, ?_, ?_, ?_, ?_⟩ h
    · rw [hcs1len, hA]
    · rw [hins]
      exact hC1
    · rw [hins]
      have hD1' := hD1
      refine chain'_imp_mem _ ?_ hD1'
      intro a _ b _ hrel
      exact hrel
    · rw [hins, hlast_pres]
      simp [hE]
    · rw [hins, hlast_pres]
      simp [hF]

/-- The median-cut loop preserves `MCInv`. -/
theorem medianCutLoop_inv (Cc : List Rgb24) (hvalC : ∀ c ∈ Cc, c.isU8) (ps : Nat) :
    ∀ (fuel : Nat) (cs : List Rgb24) (bs : List Bucket) (cs' : List Rgb24) (bs' : List Bucket),
    MCInv Cc cs bs → medianCutLoop fuel ps cs bs = some (cs', bs') → MCInv Cc cs' bs' := by
  intro fuel
  induction fuel with
  | zero => intro cs bs cs' bs' _ h; exact absurd h (by simp [medianCutLoop])
  | succ fuel ih =>
    intro cs bs cs' bs' hinv h
    unfold medianCutLoop at h
    by_cases hg : bs.length ≤ ps
    swap
    · rw [if_neg hg] at h
      simp only [Option.some.injEq, Prod.mk.injEq] at h
      obtain ⟨h1, h2⟩ := h
      rw [← h1, ← h2]
      exact hinv
    rw [if_pos hg] at h
    cases hmb : maxByDelta bs with
    | none => rw [hmb] at h; exact absurd h (by simp)
    | some ib =>
      obtain ⟨i, mb⟩ := ib
      rw [hmb] at h
      simp only at h
      cases hb1 : bs[i]? with
      | none => rw [hb1] at h; exact absurd h (by simp)
      | some bi =>
        cases hb2 : bs[i + 1]? with
        | none => rw [hb1, hb2] at h; exact absurd h (by simp)
        | some bi1 =>
          rw [hb1, hb2] at h
          simp only at h
          cases hsl : sliceRange cs bi.offset bi1.offset with
          | none => rw [hsl] at h; exact absurd h (by simp)
          | some bucket_colors =>
            rw [hsl] at h
            simp only at h
            cases hlo : sliceRange
                (cs.take bi.offset ++ Rgb24.radix_sort bucket_colors mb.channel ++
                  cs.drop bi1.offset)
                bi.offset ((bi.offset + bi1.offset) / 2) with
            | none => rw [hlo] at h; exact absurd h (by simp)
            | some lo =>
              cases hhi : sliceRange
                  (cs.take bi.offset ++ Rgb24.radix_sort bucket_colors mb.channel ++
                    cs.drop bi1.offset)
                  ((bi.offset + bi1.offset) / 2) bi1.offset with
              | none => rw [hlo, hhi] at h; exact absurd h (by simp)
              | some hi =>
                rw [hlo, hhi] at h
                simp only at h
                exact medianCutLoop_inv_step Cc hvalC ps fuel cs bs cs' bs' i mb bi bi1
                  bucket_colors lo hi hinv hmb hb1 hb2 hsl hlo hhi h ih

/-- A successful `Option`-valued `mapM` maps every output element from
some input element. -/
theorem mem_mapM_option {α β : Type} (f : α → Option β) (l : List α) (l' : List β)
    (h : l.mapM f = some l') : ∀ x ∈ l', ∃ a ∈ l, f a = some x := by
  induction l generalizing l' with
  | nil =>
    simp only [List.mapM_nil, pure, Option.some.injEq] at h
    subst h
    simp
  | cons a as ih =>
    rw [List.mapM_cons] at h
    cases hf : f a with
    | none => rw [hf] at h; exact absurd h (by simp)
    | some b =>
      rw [hf] at h
      cases hrec : as.mapM f with
      | none => rw [hrec] at h; exact absurd h (by simp)
      | some bs =>
        rw [hrec] at h
        have hbs : b :: bs = l' := by simpa using h
        intro x hx
        rw [← hbs] at hx
        rcases List.mem_cons.mp hx with h1 | h1
        · exact ⟨a, by simp, by rw [hf, h1]⟩
        · obtain ⟨a', ha', hfa'⟩ := ih bs hrec x h1
          exact ⟨a', List.mem_cons_of_mem _ ha', hfa'⟩

/-- Membership in `zip l l.tail` is adjacency in `l`. -/
theorem zip_tail_adjacent {α : Type} (l : List α) (p : α × α) (hp : p ∈ l.zip l.tail) :
    ∃ j, l[j]? = some p.1 ∧ l[j + 1]? = some p.2 := by
  obtain ⟨n, hn⟩ := List.mem_iff_getElem?.mp hp
  obtain ⟨x, y⟩ := p
  rw [List.getElem?_zip_eq_some] at hn
  exact ⟨n, hn.1, by simpa using hn.2⟩

/-- Every palette entry of a successful `median_cut` run lies in the hull
of the input colors. -/
theorem median_cut_hull (Cc : List Rgb24) (hne : Cc ≠ []) (hval : ∀ c ∈ Cc, c.isU8)
    (K : Nat) (P : List Rgb24) (h : median_cut Cc K = some P) :
    ∀ x ∈ P, inHull Cc x := by
  have hlenpos : 0 < Cc.length := List.length_pos.mpr hne
  unfold median_cut at h
  simp only at h
  cases hloop : medianCutLoop (K + 2) K Cc
      [Bucket.new 0 (Rgb24.max_channel_delta Cc).1 (Rgb24.max_channel_delta Cc).2,
       Bucket.new Cc.length (Rgb24.max_channel_delta Cc).1 0] with
  | none => rw [hloop] at h; exact absurd h (by simp)
  | some pr =>
    obtain ⟨cs', bs'⟩ := pr
    rw [hloop] at h
    simp only at h
    have hinit : MCInv Cc Cc
        [Bucket.new 0 (Rgb24.max_channel_delta Cc).1 (Rgb24.max_channel_delta Cc).2,
         Bucket.new Cc.length (Rgb24.max_channel_delta Cc).1 0] := by
      refine ⟨rfl, fun c hc => hc, ?_, ?_, by simp [Bucket.new], by simp [Bucket.new]⟩
      · rw [List.chain'_cons]
        exact ⟨by unfold offLT; simpa [Bucket.new], List.chain'_singleton _⟩
      · rw [List.chain'_cons]
        refine ⟨?_, List.chain'_singleton _⟩
        simp only [Bucket.new]
        unfold sliceL
        rw [List.drop_zero, Nat.sub_zero, List.take_length]
    have hfin := medianCutLoop_inv Cc hval K (K + 2) Cc _ cs' bs' hinit hloop
    obtain ⟨hA, hB, hC, hD, hE, hF⟩ := hfin
    intro x hx
    obtain ⟨p, hp_mem, hfp⟩ := mem_mapM_option _ _ _ h x hx
    obtain ⟨sl, hsl, havg⟩ := Option.map_eq_some'.mp hfp
    obtain ⟨j, hj1, hj2⟩ := zip_tail_adjacent bs' p hp_mem
    have hadj : offLT p.1 p.2 := chain'_rel_of_getElem? bs' j p.1 p.2 hC hj1 hj2
    obtain ⟨hsl_eq, hsl_le, hsl_len⟩ := sliceRange_eq_sliceL cs' p.1.offset p.2.offset sl hsl
    have hslen : 0 < sl.length := by
      rw [hsl_eq]
      unfold sliceL
      rw [List.length_take, List.length_drop]
      unfold offLT at hadj
      omega
    have hsl_ne : sl ≠ [] := by
      intro hnil
      rw [hnil] at hslen
      simp at hslen
    have hsub : ∀ y ∈ sl, y ∈ Cc := by
      intro y hy
      rw [hsl_eq] at hy
      exact hB y (sliceL_subset cs' _ _ y hy)
    rw [← havg]
    exact average_mem_hull sl Cc hsl_ne hsub hval

/-! Octree arena invariant (claim C9, octree engine). -/

theorem leafAgg_zero (Cc : List Rgb24) : LeafAgg Cc ⟨0, 0, 0, 0⟩ :=
  ⟨[], by simp, rfl, rfl, rfl, rfl⟩

theorem leafAgg_single (Cc : List Rgb24) (c : Rgb24) (hc : c ∈ Cc) :
    LeafAgg Cc ⟨1, c.r, c.g, c.b⟩ :=
  ⟨[c], by simpa, rfl, by simp, by simp, by simp⟩

theorem arenaInv_set (Cc : List Rgb24) (octants : List Octant) (n : Nat) (o : Octant)
    (hinv : ArenaInv Cc octants) (ho : ∀ lf, o = Octant.leaf lf → LeafAgg Cc lf) :
    ArenaInv Cc (octants.set n o) := by
  intro a ha lf hlf
  rcases List.mem_or_eq_of_mem_set ha with h1 | h1
  · exact hinv a h1 lf hlf
  · exact ho lf (h1 ▸ hlf)

theorem arenaInv_append (Cc : List Rgb24) (octants : List Octant) (o : Octant)
    (hinv : ArenaInv Cc octants) (ho : ∀ lf, o = Octant.leaf lf → LeafAgg Cc lf) :
    ArenaInv Cc (octants ++ [o]) := by
  intro a ha lf hlf
  rcases List.mem_append.mp ha with h1 | h1
  · exact hinv a h1 lf hlf
  · rw [List.mem_singleton] at h1
    exact ho lf (h1 ▸ hlf)

theorem set_child_leaf (o : Octant) (i hdl : Nat) (lf : Leaf)
    (h : o.set_child i hdl = Octant.leaf lf) : o = Octant.leaf lf := by
  cases o with
  | branch children => exact absurd h (by simp [Octant.set_child])
  | leaf lf0 => exact h

theorem new_branch_not_leaf (lf : Leaf) : Octant.new_branch ≠ Octant.leaf lf := by
  simp [Octant.new_branch]

/-- The parent-link update of `add_branch`/`add_leaf` keeps the invariant:
the rewritten slot holds either the untouched leaf it already held or a
branch. -/
theorem arenaInv_link (Cc : List Rgb24) (octants : List Octant) (handle index hdl : Nat)
    (hinv : ArenaInv Cc octants) :
    ArenaInv Cc (octants.set handle
      ((octants.getD handle Octant.new_branch).set_child index hdl)) := by
  apply arenaInv_set Cc octants handle _ hinv
  intro lf hlf
  have h1 := set_child_leaf _ _ _ _ hlf
  rw [List.getD_eq_getElem?_getD] at h1
  cases hg : octants[handle]? with
  | none =>
    rw [hg] at h1
    exact absurd h1 (new_branch_not_leaf lf)
  | some o' =>
    rw [hg] at h1
    exact hinv o' (List.getElem?_mem hg) lf h1

theorem add_branch_inv (Cc : List Rgb24) (t : Octree) (handle index level : Nat)
    (hinv : ArenaInv Cc t.octants) :
    ArenaInv Cc (t.add_branch handle index level).octants := by
  unfold Octree.add_branch
  simp only
  apply arenaInv_link
  exact arenaInv_append Cc t.octants _ hinv
    (fun lf hlf => absurd hlf (new_branch_not_leaf lf))

theorem add_leaf_inv (Cc : List Rgb24) (t : Octree) (handle index level : Nat) (c : Rgb24)
    (hc : c ∈ Cc) (hinv : ArenaInv Cc t.octants) :
    ArenaInv Cc (t.add_leaf handle index level c).octants := by
  unfold Octree.add_leaf
  simp only
  apply arenaInv_link
  apply arenaInv_append Cc t.octants _ hinv
  intro lf hlf
  have : lf = ⟨1, c.r, c.g, c.b⟩ := by
    simp only [Octant.ofColor, Octant.leaf.injEq] at hlf
    exact hlf.symm
  rw [this]
  exact leafAgg_single Cc c hc

theorem descendStep_inv (Cc : List Rgb24) (c : Rgb24) (lv : Nat)
    (acc : Option (Octree × Nat))
    (hacc : ∀ u hd, acc = some (u, hd) → ArenaInv Cc u.octants) :
    ∀ u hd, Octree.descendStep c acc lv = some (u, hd) → ArenaInv Cc u.octants := by
  intro u hd hstep
  cases acc with
  | none => exact absurd hstep (by simp [Octree.descendStep])
  | some th =>
    obtain ⟨t0, h0⟩ := th
    have hinv0 : ArenaInv Cc t0.octants := hacc t0 h0 rfl
    unfold Octree.descendStep at hstep
    simp only [Option.some_bind] at hstep
    cases hoct : t0.octants[h0]? with
    | none => rw [hoct] at hstep; exact absurd hstep (by simp)
    | some oct =>
      rw [hoct] at hstep
      simp only at hstep
      by_cases hex : oct.child_exists (c.level_index lv)
      · rw [if_pos hex, hoct] at hstep
        simp only at hstep
        obtain ⟨a, -, heq⟩ := Option.map_eq_some'.mp hstep
        have hu : t0 = u := congrArg Prod.fst heq
        rw [← hu]
        exact hinv0
      · rw [if_neg hex] at hstep
        cases hoct2 : (t0.add_branch h0 (c.level_index lv) lv).octants[h0]? with
        | none => rw [hoct2] at hstep; exact absurd hstep (by simp)
        | some oct' =>
          rw [hoct2] at hstep
          simp only at hstep
          obtain ⟨a, -, heq⟩ := Option.map_eq_some'.mp hstep
          have hu : t0.add_branch h0 (c.level_index lv) lv = u := congrArg Prod.fst heq
          rw [← hu]
          exact add_branch_inv Cc t0 h0 (c.level_index lv) lv hinv0

theorem fold_descend_inv (Cc : List Rgb24) (c : Rgb24) (lvls : List Nat) :
    ∀ (acc : Option (Octree × Nat)),
    (∀ u hd, acc = some (u, hd) → ArenaInv Cc u.octants) →
    ∀ u hd, lvls.foldl (Octree.descendStep c) acc = some (u, hd) → ArenaInv Cc u.octants := by
  induction lvls with
  | nil => intro acc hacc u hd h; exact hacc u hd h
  | cons lv lvs ih =>
    intro acc hacc u hd h
    rw [List.foldl_cons] at h
    exact ih (Octree.descendStep c acc lv) (descendStep_inv Cc c lv acc hacc) u hd h

theorem add_color_inv (Cc : List Rgb24) (t t' : Octree) (c : Rgb24) (hc : c ∈ Cc)
    (hinv : ArenaInv Cc t.octants) (h : t.add_color c = some t') : ArenaInv Cc t'.octants := by
  unfold Octree.add_color at h
  cases hfd : (List.range 7).foldl (Octree.descendStep c) (some (t, Octree.ROOT)) with
  | none => rw [hfd] at h; exact absurd h (by simp)
  | some th =>
    obtain ⟨t1, handle⟩ := th
    rw [hfd] at h
    simp only at h
    have hinv1 : ArenaInv Cc t1.octants := by
      refine fold_descend_inv Cc c (List.range 7) (some (t, Octree.ROOT)) ?_ t1 handle hfd
      intro u hd hu
      have h1 : t = u := congrArg Prod.fst (Option.some.inj hu)
      rw [← h1]
      exact hinv
    cases hoct : t1.octants[handle]? with
    | none => rw [hoct] at h; exact absurd h (by simp)
    | some oct =>
      rw [hoct] at h
      simp only at h
      by_cases hex : oct.child_exists (c.level_index 7)
      · rw [if_pos hex] at h
        cases hch : oct.child (c.level_index 7) with
        | none => rw [hch] at h; exact absurd h (by simp)
        | some child_handle =>
          rw [hch] at h
          simp only at h
          cases hco : t1.octants[child_handle]? with
          | none => rw [hco] at h; exact absurd h (by simp)
          | some childOct =>
            rw [hco] at h
            simp only [Option.some.injEq] at h
            rw [← h]
            show ArenaInv Cc (t1.octants.set child_handle (childOct.add_color c))
            apply arenaInv_set Cc t1.octants child_handle _ hinv1
            intro lf hlf
            cases childOct with
            | branch ch => exact absurd hlf (by simp [Octant.add_color])
            | leaf lf0 =>
              obtain ⟨M, hMsub, hMc, hMr, hMg, hMb⟩ := hinv1 _ (List.getElem?_mem hco) lf0 rfl
              simp only [Octant.add_color, Octant.leaf.injEq] at hlf
              refine ⟨c :: M, ?_, ?_, ?_, ?_, ?_⟩
              · intro y hy
                rcases List.mem_cons.mp hy with h1 | h1
                · rw [h1]; exact hc
                · exact hMsub y h1
              · rw [← hlf]; simp only [List.length_cons]; omega
              · rw [← hlf]; simp only [List.map_cons, List.sum_cons]; omega
              · rw [← hlf]; simp only [List.map_cons, List.sum_cons]; omega
              · rw [← hlf]; simp only [List.map_cons, List.sum_cons]; omega
      · rw [if_neg hex] at h
        simp only [Option.some.injEq] at h
        rw [← h]
        exact add_leaf_inv Cc t1 handle (c.level_index 7) 7 c hc hinv1

theorem build_fold_none (cs : List Rgb24) :
    cs.foldl (fun acc c => acc.bind (Octree.add_color · c)) none = none := by
  induction cs with
  | nil => rfl
  | cons c cs ih => simpa [List.foldl_cons] using ih

theorem build_inv (Cc : List Rgb24) (l : List Rgb24) (hl : ∀ c ∈ l, c ∈ Cc) :
    ∀ (t t' : Octree), ArenaInv Cc t.octants → Octree.build t l = some t' →
    ArenaInv Cc t'.octants := by
  induction l with
  | nil =>
    intro t t' hinv h
    unfold Octree.build at h
    simp only [List.foldl_nil, Option.some.injEq] at h
    rw [← h]
    exact hinv
  | cons c cs ih =>
    intro t t' hinv h
    unfold Octree.build at h
    rw [List.foldl_cons] at h
    simp only [Option.some_bind] at h
    cases hac : t.add_color c with
    | none =>
      rw [hac] at h
      rw [build_fold_none] at h
      exact absurd h (by simp)
    | some t1 =>
      rw [hac] at h
      exact ih (fun x hx => hl x (List.mem_cons_of_mem _ hx)) t1 t'
        (add_color_inv Cc t t1 c (hl c (List.mem_cons_self ..)) hinv hac) h

theorem branch_to_leaf_agg (Cc : List Rgb24) (octants : List Octant) (children : List Nat)
    (hinv : ArenaInv Cc octants) :
    ∀ lf, Octree.branch_to_leaf octants children = Octant.leaf lf → LeafAgg Cc lf := by
  intro lf hlf
  unfold Octree.branch_to_leaf at hlf
  simp only [Octant.new_leaf, Octant.leaf.injEq] at hlf
  have key : ∀ (hs : List Nat) (acc : Nat × Nat × Nat × Nat),
      (∃ M : List Rgb24, (∀ y ∈ M, y ∈ Cc) ∧ acc.1 = M.length ∧
        acc.2.1 = (M.map Rgb24.r).sum ∧ acc.2.2.1 = (M.map Rgb24.g).sum ∧
        acc.2.2.2 = (M.map Rgb24.b).sum) →
      ∃ M : List Rgb24, (∀ y ∈ M, y ∈ Cc) ∧
        (hs.foldl (fun (acc : Nat × Nat × Nat × Nat) h =>
          match octants[h]? with
          | some (Octant.leaf lf) =>
            (acc.1 + lf.count, acc.2.1 + lf.r, acc.2.2.1 + lf.g, acc.2.2.2 + lf.b)
          | _ => acc) acc).1 = M.length ∧
        (hs.foldl (fun (acc : Nat × Nat × Nat × Nat) h =>
          match octants[h]? with
          | some (Octant.leaf lf) =>
            (acc.1 + lf.count, acc.2.1 + lf.r, acc.2.2.1 + lf.g, acc.2.2.2 + lf.b)
          | _ => acc) acc).2.1 = (M.map Rgb24.r).sum ∧
        (hs.foldl (fun (acc : Nat × Nat × Nat × Nat) h =>
          match octants[h]? with
          | some (Octant.leaf lf) =>
            (acc.1 + lf.count, acc.2.1 + lf.r, acc.2.2.1 + lf.g, acc.2.2.2 + lf.b)
          | _ => acc) acc).2.2.1 = (M.map Rgb24.g).sum ∧
        (hs.foldl (fun (acc : Nat × Nat × Nat × Nat) h =>
          match octants[h]? with
          | some (Octant.leaf lf) =>
            (acc.1 + lf.count, acc.2.1 + lf.r, acc.2.2.1 + lf.g, acc.2.2.2 + lf.b)
          | _ => acc) acc).2.2.2 = (M.map Rgb24.b).sum := by
    intro hs
    induction hs with
    | nil => intro acc hacc; simpa using hacc
    | cons hh hhs ih =>
      intro acc hacc
      rw [List.foldl_cons]
      apply ih
      cases hg : octants[hh]? with
      | none => simpa [hg] using hacc
      | some o =>
        cases o with
        | branch ch => simpa [hg] using hacc
        | leaf lf' =>
          obtain ⟨M', hM'sub, hM'c, hM'r, hM'g, hM'b⟩ := hinv _ (List.getElem?_mem hg) lf' rfl
          obtain ⟨M, hMsub, hMc, hMr, hMg, hMb⟩ := hacc
          refine ⟨M ++ M', ?_, ?_, ?_, ?_, ?_⟩
          · intro y hy
            rcases List.mem_append.mp hy with h1 | h1
            · exact hMsub y h1
            · exact hM'sub y h1
          all_goals simp only [hg, List.length_append, List.map_append, List.sum_append]
          · omega
          · omega
          · omega
          · omega
  have hbase : ∃ M : List Rgb24, (∀ y ∈ M, y ∈ Cc) ∧ (0, 0, 0, 0).1 = M.length ∧
      ((0, 0, 0, 0) : Nat × Nat × Nat × Nat).2.1 = (M.map Rgb24.r).sum ∧
      ((0, 0, 0, 0) : Nat × Nat × Nat × Nat).2.2.1 = (M.map Rgb24.g).sum ∧
      ((0, 0, 0, 0) : Nat × Nat × Nat × Nat).2.2.2 = (M.map Rgb24.b).sum :=
    ⟨[], by simp, rfl, rfl, rfl, rfl⟩
  obtain ⟨M, hMsub, hMc, hMr, hMg, hMb⟩ :=
    key (children.filter (fun h => h ≠ Octree.EMPTY)) (0, 0, 0, 0) hbase
  subst hlf
  exact ⟨M, hMsub, hMc, hMr, hMg, hMb⟩

theorem clear_children_inv (Cc : List Rgb24) :
    ∀ (hs : List Nat) (os : List Octant), ArenaInv Cc os →
    ArenaInv Cc (hs.foldl (fun os h => os.set h (Octant.new_leaf 0 0 0 0)) os) := by
  intro hs
  induction hs with
  | nil => intro os hinv; exact hinv
  | cons hh hhs ih =>
    intro os hinv
    rw [List.foldl_cons]
    apply ih
    apply arenaInv_set Cc os hh _ hinv
    intro lf hlf
    simp only [Octant.new_leaf, Octant.leaf.injEq] at hlf
    rw [← hlf]
    exact leafAgg_zero Cc

theorem reduceGo_inv (Cc : List Rgb24) (size : Nat) :
    ∀ (handles : List Nat) (octants : List Octant) (leaf_count : Nat)
      (octs' : List Octant) (tr : List REvent),
    ArenaInv Cc octants → Octree.reduceGo octants leaf_count size handles = some (octs', tr) →
    ArenaInv Cc octs' := by
  intro handles
  induction handles with
  | nil =>
    intro octants lc octs' tr hinv h
    unfold Octree.reduceGo at h
    simp only [Option.some.injEq, Prod.mk.injEq] at h
    rw [← h.1]
    exact hinv
  | cons hd rest ih =>
    intro octants lc octs' tr hinv h
    unfold Octree.reduceGo at h
    cases hoct : octants[hd]? with
    | none => rw [hoct] at h; exact absurd h (by simp)
    | some oct =>
      rw [hoct] at h
      simp only at h
      by_cases hskip : lc - oct.child_count + 1 < size
      · rw [if_pos hskip] at h
        rcases Option.map_eq_some'.mp h with ⟨⟨po, ptr⟩, hrec, hp⟩
        have h1 : po = octs' := congrArg Prod.fst hp
        rw [← h1]
        exact ih octants lc po ptr hinv hrec
      · rw [if_neg hskip] at h
        cases oct with
        | leaf lf => exact absurd h (by simp)
        | branch children =>
          simp only at h
          by_cases hz : (Octant.branch children).child_count = 0
          · rw [if_pos hz] at h
            simp only [Option.some.injEq, Prod.mk.injEq] at h
            rw [← h.1]
            exact hinv
          · rw [if_neg hz] at h
            rcases Option.map_eq_some'.mp h with ⟨⟨po, ptr⟩, hrec, hp⟩
            have h1 : po = octs' := congrArg Prod.fst hp
            rw [← h1]
            refine ih _ _ po ptr ?_ hrec
            apply arenaInv_set
            · exact clear_children_inv Cc _ octants hinv
            · exact branch_to_leaf_agg Cc octants children hinv

theorem div_component (sum n lo hi : Nat) (hn : 1 ≤ n) (hlo : lo * n ≤ sum)
    (hhi : sum ≤ hi * n) (h255 : hi ≤ 255) :
    lo ≤ sum / n % 256 ∧ sum / n % 256 ≤ hi := by
  have h1 : lo ≤ sum / n := (Nat.le_div_iff_mul_le (by omega)).mpr hlo
  have h2 : sum / n ≤ hi := Nat.div_le_of_le_mul (by rw [Nat.mul_comm] at hhi; exact hhi)
  have h3 : sum / n % 256 = sum / n := Nat.mod_eq_of_lt (by omega)
  omega

/-- Every palette entry of a successful `octree` run lies in the hull of
the input colors. -/
theorem octree_hull (Cc : List Rgb24) (hval : ∀ c ∈ Cc, c.isU8) (K : Nat) (P : List Rgb24)
    (h : octree Cc K = some P) : ∀ x ∈ P, inHull Cc x := by
  unfold octree at h
  cases hbd : Octree.new.build Cc with
  | none => rw [hbd] at h; exact absurd h (by simp)
  | some t =>
    rw [hbd] at h
    simp only [Option.some_bind] at h
    have hnew : ArenaInv Cc Octree.new.octants := by
      intro o ho lf hlf
      simp only [Octree.new, List.mem_singleton] at ho
      rw [ho] at hlf
      exact absurd hlf (new_branch_not_leaf lf)
    have hinvt : ArenaInv Cc t.octants := build_inv Cc Cc (fun c hc => hc) Octree.new t hnew hbd
    unfold Octree.into_palette at h
    simp only at h
    cases hrd : Octree.reduceGo t.octants (t.levels.getD 7 []).length K t.reduceOrder with
    | none => rw [hrd] at h; exact absurd h (by simp)
    | some pr =>
      obtain ⟨octs', tr⟩ := pr
      rw [hrd] at h
      simp only [Option.map_some'] at h
      have hP : octs'.filterMap Octant.make_rgb24 = P := by simpa using h
      have hinv' : ArenaInv Cc octs' :=
        reduceGo_inv Cc K t.reduceOrder t.octants _ octs' tr hinvt hrd
      intro x hx
      rw [← hP] at hx
      obtain ⟨o, ho, hmk⟩ := List.mem_filterMap.mp hx
      cases o with
      | branch ch => exact absurd hmk (by simp [Octant.make_rgb24])
      | leaf lf =>
        simp only [Octant.make_rgb24] at hmk
        by_cases hcnt : lf.count > 0
        · rw [if_pos hcnt] at hmk
          simp only [Option.some.injEq] at hmk
          obtain ⟨M, hMsub, hMc, hMr, hMg, hMb⟩ := hinv' _ ho lf rfl
          have hMlen : 1 ≤ M.length := by omega
          have hcomp : ∀ f : Rgb24 → Nat, (∀ c ∈ Cc, f c < 256) →
              chanMin Cc f ≤ (M.map f).sum / M.length % 256 ∧
              (M.map f).sum / M.length % 256 ≤ chanMax Cc f := by
            intro f hf
            have hlo : chanMin Cc f * (M.map f).length ≤ (M.map f).sum := by
              apply sum_ge
              intro v hv
              obtain ⟨y, hy, hyv⟩ := List.mem_map.mp hv
              rw [← hyv]
              exact chanMin_le_of_mem Cc f y (hMsub y hy)
            have hhi2 : (M.map f).sum ≤ chanMax Cc f * (M.map f).length := by
              apply sum_le
              intro v hv
              obtain ⟨y, hy, hyv⟩ := List.mem_map.mp hv
              rw [← hyv]
              exact le_chanMax_of_mem Cc f y (hMsub y hy)
            rw [List.length_map] at hlo hhi2
            exact div_component _ _ _ _ hMlen hlo hhi2 (chanMax_le_255 Cc f hf)
          have hr := hcomp Rgb24.r (fun c hc => (hval c hc).1)
          have hg := hcomp Rgb24.g (fun c hc => (hval c hc).2.1)
          have hb := hcomp Rgb24.b (fun c hc => (hval c hc).2.2)
          rw [← hmk]
          unfold inHull
          simp only [Rgb24.new]
          rw [hMc, hMr, hMg, hMb]
          exact ⟨hr.1, hr.2, hg.1, hg.2, hb.1, hb.2⟩
        · rw [if_neg hcnt] at hmk
          exact absurd hmk (by simp)

/-- Claim C9: for every method, non-empty u8-valid input C, and K ≥ 1,
every color of a returned palette lies componentwise within the closed
interval from the per-channel minimum to the per-channel maximum of C. -/
theorem claim_C9 (m : Method) (C : List Rgb24) (K : Nat) (P : List Rgb24) (x : Rgb24)
    (hne : C ≠ []) (_hK : 1 ≤ K) (hval : ∀ c ∈ C, c.isU8)
    (h : solve m C K = some P) (hx : x ∈ P) : inHull C x := by
  unfold solve at h
  by_cases hge : K ≥ C.length
  · rw [if_pos hge] at h
    simp only [Option.some.injEq] at h
    rw [← h] at hx
    exact mem_inHull C x hx
  · rw [if_neg hge] at h
    cases m with
    | MedianCut => exact median_cut_hull C hne hval K P h x hx
    | Octree => exact octree_hull C hval K P h x hx

/-- Concrete instantiation of C9: the median-cut palette entry (15,0,0)
for the three reds lies in their hull. -/
theorem claim_C9_witness :
    inHull [Rgb24.new 0 0 0, Rgb24.new 10 0 0, Rgb24.new 20 0 0] (Rgb24.new 15 0 0) :=
  claim_C9 Method.MedianCut [Rgb24.new 0 0 0, Rgb24.new 10 0 0, Rgb24.new 20 0 0] 2
    [Rgb24.new 0 0 0, Rgb24.new 15 0 0] (Rgb24.new 15 0 0)
    (by decide) (by decide) (by decide) (by decide) (by decide)

/-- The repo's 17-color octree test fixture reproduces the expected
K = 1 and K = 5 palettes, validating the embedding against the source test
suite. -/
example :
    (octree
      [Rgb24.new 0 0 0, Rgb24.new 53 52 12, Rgb24.new 201 210 204,
       Rgb24.new 55 51 13, Rgb24.new 221 210 204, Rgb24.new 201 223 199,
       Rgb24.new 201 102 204, Rgb24.new 23 56 124, Rgb24.new 43 126 241,
       Rgb24.new 24 16 123, Rgb24.new 23 55 101, Rgb24.new 2 15 0,
       Rgb24.new 2 102 150, Rgb24.new 200 201 201, Rgb24.new 100 100 100,
       Rgb24.new 0 0 200, Rgb24.new 255 255 255] 1
      = some [Rgb24.new 35 43 59, Rgb24.new 215 219 212, Rgb24.new 201 102 204,
              Rgb24.new 15 76 197])
    ∧ (octree
      [Rgb24.new 0 0 0, Rgb24.new 53 52 12, Rgb24.new 201 210 204,
       Rgb24.new 55 51 13, Rgb24.new 221 210 204, Rgb24.new 201 223 199,
       Rgb24.new 201 102 204, Rgb24.new 23 56 124, Rgb24.new 43 126 241,
       Rgb24.new 24 16 123, Rgb24.new 23 55 101, Rgb24.new 2 15 0,
       Rgb24.new 2 102 150, Rgb24.new 200 201 201, Rgb24.new 100 100 100,
       Rgb24.new 0 0 200, Rgb24.new 255 255 255] 5
      = some [Rgb24.new 35 43 59, Rgb24.new 215 219 212, Rgb24.new 201 102 204,
              Rgb24.new 43 126 241, Rgb24.new 2 102 150, Rgb24.new 0 0 200]) := by decide

/-- The repo's 20-color median-cut test fixture reproduces the expected
K = 8 palette, validating the embedding against the source test suite. -/
example : median_cut
    [Rgb24.new 254 182 47, Rgb24.new 147 190 63, Rgb24.new 144 129 150,
     Rgb24.new 247 200 162, Rgb24.new 209 78 31, Rgb24.new 205 70 224,
     Rgb24.new 169 152 157, Rgb24.new 5 13 222, Rgb24.new 78 208 20,
     Rgb24.new 98 205 81, Rgb24.new 196 126 248, Rgb24.new 240 61 100,
     Rgb24.new 85 254 97, Rgb24.new 191 236 235, Rgb24.new 47 56 6,
     Rgb24.new 81 67 179, Rgb24.new 172 69 24, Rgb24.new 181 63 74,
     Rgb24.new 95 229 108, Rgb24.new 154 248 89] 8
    = some
    [Rgb24.new 47 56 6, Rgb24.new 147 190 63, Rgb24.new 5 13 222,
     Rgb24.new 113 98 165, Rgb24.new 102 229 79, Rgb24.new 211 91 55,
     Rgb24.new 201 98 236, Rgb24.new 202 196 185] := by decide
